import Mathlib

/-!
# Verification of the OpenAI JSON-Schema subset enforcement passes

A shallow embedding of the schema-normalization pipeline of
`openai-schemars` (`src/lib.rs`).  The library post-processes a JSON
Schema document (a `serde_json::Value`) through four recursive passes:

1. `remove_property_format_value_from_json` — delete nineteen constraint
   keywords from every object node;
2. `replace_one_of_by_any_of` — move `oneOf` / `allOf` values under `anyOf`;
3. `set_additional_properties_to_false` — on every node whose `type` is the
   string `"object"`, set `additionalProperties` to `false`;
4. `enforce_all_required_properties` — on every node with an object-valued
   `properties` and an array-valued `required`, append each missing
   property name to `required`.

JSON values are modelled as the inductive `Json`; objects are ordered
association lists, mirroring `serde_json::Map` (the passes only look keys
up, remove them, and insert/replace them, so the list order never feeds
back into the semantics).  Each Rust pass becomes a total recursive Lean
function with the same node-first / recurse-after structure as the source.
-/

/-- A JSON value, as in `serde_json::Value`: null, booleans, numbers,
strings, arrays, and objects (finite maps from strings, modelled as
association lists). -/
inductive Json where
  | null
  | bool (b : Bool)
  | num (n : Int)
  | str (s : String)
  | arr (xs : List Json)
  | obj (kvs : List (String × Json))

namespace Json

mutual

/-- Boolean equality on `Json`, structural. -/
def beq : Json → Json → Bool
  | .null, .null => true
  | .bool a, .bool b => a == b
  | .num a, .num b => a == b
  | .str a, .str b => a == b
  | .arr xs, .arr ys => beqList xs ys
  | .obj a, .obj b => beqEntries a b
  | _, _ => false

/-- Boolean equality on lists of `Json`. -/
def beqList : List Json → List Json → Bool
  | [], [] => true
  | x :: xs, y :: ys => beq x y && beqList xs ys
  | _, _ => false

/-- Boolean equality on object entry lists. -/
def beqEntries : List (String × Json) → List (String × Json) → Bool
  | [], [] => true
  | (k, v) :: xs, (k', v') :: ys => k == k' && beq v v' && beqEntries xs ys
  | _, _ => false

end

mutual

theorem eq_of_beq : ∀ {a b : Json}, beq a b = true → a = b
  | .null, .null, _ => rfl
  | .bool _, .bool _, h => by simp [beq] at h; simp [h]
  | .num _, .num _, h => by simp [beq] at h; simp [h]
  | .str _, .str _, h => by simp [beq] at h; simp [h]
  | .arr xs, .arr ys, h => by
      simp only [beq] at h
      rw [eqList_of_beqList h]
  | .obj a, .obj b, h => by
      simp only [beq] at h
      rw [eqEntries_of_beqEntries h]

theorem eqList_of_beqList : ∀ {xs ys : List Json}, beqList xs ys = true → xs = ys
  | [], [], _ => rfl
  | x :: xs, y :: ys, h => by
      simp only [beqList, Bool.and_eq_true] at h
      rw [eq_of_beq h.1, eqList_of_beqList h.2]

theorem eqEntries_of_beqEntries :
    ∀ {a b : List (String × Json)}, beqEntries a b = true → a = b
  | [], [], _ => rfl
  | (k, v) :: xs, (k', v') :: ys, h => by
      simp only [beqEntries, Bool.and_eq_true] at h
      rw [eq_of_beq h.1.2, eqEntries_of_beqEntries h.2]
      simp only [beq_iff_eq] at h
      rw [h.1.1]

end

mutual

theorem beq_rfl : ∀ (a : Json), beq a a = true
  | .null => rfl
  | .bool _ => by simp [beq]
  | .num _ => by simp [beq]
  | .str _ => by simp [beq]
  | .arr xs => by simp only [beq]; exact beqList_rfl xs
  | .obj a => by simp only [beq]; exact beqEntries_rfl a

theorem beqList_rfl : ∀ (xs : List Json), beqList xs xs = true
  | [] => rfl
  | x :: xs => by
      simp only [beqList, Bool.and_eq_true]
      exact ⟨beq_rfl x, beqList_rfl xs⟩

theorem beqEntries_rfl : ∀ (a : List (String × Json)), beqEntries a a = true
  | [] => rfl
  | (k, v) :: xs => by
      simp only [beqEntries, Bool.and_eq_true]
      exact ⟨⟨by simp, beq_rfl v⟩, beqEntries_rfl xs⟩

end

instance : DecidableEq Json := fun a b =>
  if h : beq a b = true then .isTrue (eq_of_beq h)
  else .isFalse (fun he => h (he ▸ beq_rfl a))

end Json

/-! ## Object-map operations

`serde_json::Map` operations, on association lists.  `getKey` is
`Map::get` (first matching entry), `removeKey` is `Map::remove`
(drops every entry with the key — a well-formed map has at most one),
and `insertKey` is `Map::insert` (replace the value of the existing
entry, or add a new entry). -/

/-- `Map::get`: the value of the first entry with key `k`. -/
def getKey (k : String) : List (String × Json) → Option Json
  | [] => none
  | (k', v) :: rest => if k' = k then some v else getKey k rest

/-- `Map::remove`: drop the entries with key `k`. -/
def removeKey (k : String) (kvs : List (String × Json)) : List (String × Json) :=
  kvs.filter (fun kv => kv.1 ≠ k)

/-- `Map::insert`: replace the value of the first entry with key `k`,
or append a fresh entry at the end. -/
def insertKey (k : String) (v : Json) : List (String × Json) → List (String × Json)
  | [] => [(k, v)]
  | (k', v') :: rest =>
      if k' = k then (k, v) :: rest else (k', v') :: insertKey k v rest

/-- `Map::contains_key` as a Bool. -/
def hasKey (k : String) (kvs : List (String × Json)) : Bool :=
  kvs.any (fun kv => kv.1 = k)

/-- `Map::keys`: the keys of the entry list, in order. -/
def keysOf (kvs : List (String × Json)) : List String :=
  kvs.map Prod.fst

/-- Apply `f` to every value of an entry list (the
`for value in object.values_mut()` recursion step of each pass). -/
def mapValues (f : Json → Json) (kvs : List (String × Json)) : List (String × Json) :=
  kvs.map (fun kv => (kv.1, f kv.2))

/-! ## The four passes (from `src/lib.rs`) -/

/-- The nineteen constraint keywords deleted by
`Schema::remove_property_format_value_from_json`. -/
def strippedKeys : List String :=
  ["minLength", "maxLength", "pattern", "format", "minimum", "maximum",
   "multipleOf", "patternProperties", "unevaluatedProperties", "propertyNames",
   "minProperties", "maxProperties", "unevaluatedItems", "contains",
   "minContains", "maxContains", "minItems", "maxItems", "uniqueItems"]

/-- Keep an entry iff its key is not a stripped keyword. -/
def keepEntry (kv : String × Json) : Bool := !(strippedKeys.contains kv.1)

mutual

/-- `Schema::remove_property_format_value_from_json`: on every object node,
remove the nineteen `strippedKeys` entries, then recurse into the remaining
values; recurse through arrays; leave scalars alone.  (Removing the keys
first and then recursing into the survivors is equivalent to this one-sweep
form, since the retained values are transformed independently.) -/
def remove_property_format_value_from_json : Json → Json
  | .obj kvs => .obj (stripEntries kvs)
  | .arr xs => .arr (stripList xs)
  | x => x

/-- Array recursion of the constraint stripper. -/
def stripList : List Json → List Json
  | [] => []
  | x :: xs => remove_property_format_value_from_json x :: stripList xs

/-- Object recursion of the constraint stripper: an entry whose key is in
`strippedKeys` is dropped, value and all; the others have their value
transformed. -/
def stripEntries : List (String × Json) → List (String × Json)
  | [] => []
  | (k, v) :: rest =>
      if strippedKeys.contains k then stripEntries rest
      else (k, remove_property_format_value_from_json v) :: stripEntries rest

end

/-- The `for key in ["oneOf", "allOf"]` body of
`Schema::replace_one_of_by_any_of`: if the node has key `src`, remove it
and insert its value under `dst`. -/
def moveKey (src dst : String) (kvs : List (String × Json)) : List (String × Json) :=
  match getKey src kvs with
  | some v => insertKey dst v (removeKey src kvs)
  | none => kvs

mutual

/-- `Schema::replace_one_of_by_any_of`: on every object node, move the
`oneOf` value under `anyOf`, then the `allOf` value under `anyOf` (in that
order, so with both present `allOf` wins), and recurse into the values.
The source performs the two moves first and then recurses into the
resulting values; this definition recurses first so that the recursion is
structural, and the theorem `replace_one_of_by_any_of_obj` proves the two
orders produce the same entries. -/
def replace_one_of_by_any_of : Json → Json
  | .obj kvs => .obj (moveKey "allOf" "anyOf" (moveKey "oneOf" "anyOf" (anyOfEntries kvs)))
  | .arr xs => .arr (anyOfList xs)
  | x => x

/-- Array recursion of the union normalizer. -/
def anyOfList : List Json → List Json
  | [] => []
  | x :: xs => replace_one_of_by_any_of x :: anyOfList xs

/-- Value recursion of the union normalizer (runs after the key moves). -/
def anyOfEntries : List (String × Json) → List (String × Json)
  | [] => []
  | (k, v) :: rest => (k, replace_one_of_by_any_of v) :: anyOfEntries rest

end

mutual

/-- `Schema::set_additional_properties_to_false`: on every object node whose
`type` key is the string `"object"`, insert `"additionalProperties": false`
(overwriting), and recurse into the values.  The source inserts first and
then recurses into the resulting values (the inserted `false` is a scalar,
fixed by the recursion); this definition recurses first so that the
recursion is structural, and the theorem
`set_additional_properties_to_false_obj` proves the two orders produce the
same entries. -/
def set_additional_properties_to_false : Json → Json
  | .obj kvs =>
      .obj (if getKey "type" kvs = some (.str "object")
            then insertKey "additionalProperties" (.bool false) (closeEntries kvs)
            else closeEntries kvs)
  | .arr xs => .arr (closeList xs)
  | x => x

/-- Array recursion of the closed-object enforcer. -/
def closeList : List Json → List Json
  | [] => []
  | x :: xs => set_additional_properties_to_false x :: closeList xs

/-- Value recursion of the closed-object enforcer (runs after the insert). -/
def closeEntries : List (String × Json) → List (String × Json)
  | [] => []
  | (k, v) :: rest => (k, set_additional_properties_to_false v) :: closeEntries rest

end

/-- The `for property in properties { if !required.contains(&property) {
required.push(property) } }` loop: append each property name not already
present in the `required` array. -/
def pushMissing (r : List Json) (ks : List String) : List Json :=
  ks.foldl (fun acc k => if (Json.str k) ∈ acc then acc else acc ++ [Json.str k]) r

/-- The node-level rewrite of `Schema::enforce_all_required_properties`:
if the node has an object-valued `properties` and an array-valued
`required`, push every missing property name onto `required`; otherwise
leave the node as it is. -/
def requireNode (kvs : List (String × Json)) : List (String × Json) :=
  match getKey "properties" kvs, getKey "required" kvs with
  | some (.obj pk), some (.arr r) =>
      insertKey "required" (.arr (pushMissing r (keysOf pk))) kvs
  | _, _ => kvs

mutual

/-- `Schema::enforce_all_required_properties`: on every object node, run
`requireNode`, and recurse into the values.  The source runs the push
first and then recurses into the resulting values; this definition
recurses first so that the recursion is structural, and the theorem
`enforce_all_required_properties_obj` proves the two orders produce the
same entries. -/
def enforce_all_required_properties : Json → Json
  | .obj kvs => .obj (requireNode (requireEntries kvs))
  | .arr xs => .arr (requireList xs)
  | x => x

/-- Array recursion of the total-required enforcer. -/
def requireList : List Json → List Json
  | [] => []
  | x :: xs => enforce_all_required_properties x :: requireList xs

/-- Value recursion of the total-required enforcer (runs after the push). -/
def requireEntries : List (String × Json) → List (String × Json)
  | [] => []
  | (k, v) :: rest => (k, enforce_all_required_properties v) :: requireEntries rest

end

/-- `Schema::enforce_openai_subset`: the four passes in the fixed source
order — strip constraints, normalize unions, close objects, enforce
required. -/
def enforce_openai_subset (v : Json) : Json :=
  enforce_all_required_properties
    (set_additional_properties_to_false
      (replace_one_of_by_any_of
        (remove_property_format_value_from_json v)))

/-- `Schema::new::<T>()`: the upstream `serde_json::to_value(schema_for!(T))`
conversion is an external fallible step, taken here as the argument; a
conversion error is propagated unchanged (the `?` operator), and a
successful conversion is normalized by `enforce_openai_subset` and returned
as a success. -/
def schemaNew (conv : Except String Json) : Except String Json :=
  match conv with
  | .error e => .error e
  | .ok v => .ok (enforce_openai_subset v)

/-! ## Lemmas about the object-map operations -/

@[simp]
theorem getKey_nil (k : String) : getKey k [] = none := rfl

@[simp]
theorem getKey_cons (k k' : String) (v : Json) (rest : List (String × Json)) :
    getKey k ((k', v) :: rest) = if k' = k then some v else getKey k rest := rfl

@[simp]
theorem insertKey_nil (k : String) (v : Json) : insertKey k v [] = [(k, v)] := rfl

@[simp]
theorem insertKey_cons (k k' : String) (v v' : Json) (rest : List (String × Json)) :
    insertKey k v ((k', v') :: rest) =
      if k' = k then (k, v) :: rest else (k', v') :: insertKey k v rest := rfl

@[simp]
theorem removeKey_nil (k : String) : removeKey k [] = [] := rfl

@[simp]
theorem removeKey_cons (k : String) (kv : String × Json) (rest : List (String × Json)) :
    removeKey k (kv :: rest) =
      if kv.1 = k then removeKey k rest else kv :: removeKey k rest := by
  simp only [removeKey, List.filter_cons]
  by_cases h : kv.1 = k <;> simp [h]

@[simp]
theorem mapValues_nil (f : Json → Json) : mapValues f [] = [] := rfl

@[simp]
theorem mapValues_cons (f : Json → Json) (kv : String × Json) (rest : List (String × Json)) :
    mapValues f (kv :: rest) = (kv.1, f kv.2) :: mapValues f rest := rfl

@[simp]
theorem keysOf_nil : keysOf [] = [] := rfl

@[simp]
theorem keysOf_cons (kv : String × Json) (rest : List (String × Json)) :
    keysOf (kv :: rest) = kv.1 :: keysOf rest := rfl

@[simp]
theorem hasKey_nil (k : String) : hasKey k [] = false := rfl

@[simp]
theorem hasKey_cons (k : String) (kv : String × Json) (rest : List (String × Json)) :
    hasKey k (kv :: rest) = (decide (kv.1 = k) || hasKey k rest) := by
  simp [hasKey]

theorem getKey_mapValues (f : Json → Json) (k : String) :
    ∀ kvs : List (String × Json), getKey k (mapValues f kvs) = (getKey k kvs).map f
  | [] => rfl
  | (k', v) :: rest => by
      by_cases h : k' = k <;> simp [h, getKey_mapValues f k rest]

theorem keysOf_mapValues (f : Json → Json) :
    ∀ kvs : List (String × Json), keysOf (mapValues f kvs) = keysOf kvs
  | [] => rfl
  | kv :: rest => by simp [keysOf_mapValues f rest]

theorem hasKey_mapValues (f : Json → Json) (k : String) :
    ∀ kvs : List (String × Json), hasKey k (mapValues f kvs) = hasKey k kvs
  | [] => rfl
  | kv :: rest => by simp [hasKey_mapValues f k rest]

@[simp]
theorem getKey_insertKey_self (k : String) (v : Json) :
    ∀ kvs : List (String × Json), getKey k (insertKey k v kvs) = some v
  | [] => by simp
  | (k', v') :: rest => by
      by_cases h : k' = k <;> simp [h, getKey_insertKey_self k v rest]

theorem getKey_insertKey_ne (k k' : String) (v : Json) (h : k' ≠ k) :
    ∀ kvs : List (String × Json), getKey k' (insertKey k v kvs) = getKey k' kvs
  | [] => by simp [Ne.symm h]
  | (k'', v') :: rest => by
      by_cases h2 : k'' = k
      · simp [h2, Ne.symm h]
      · by_cases h3 : k'' = k' <;>
          simp [h2, h3, h, getKey_insertKey_ne k k' v h rest]

theorem getKey_removeKey_self (k : String) :
    ∀ kvs : List (String × Json), getKey k (removeKey k kvs) = none
  | [] => rfl
  | (k', v) :: rest => by
      by_cases h : k' = k <;> simp [h, getKey_removeKey_self k rest]

theorem getKey_removeKey_ne (k k' : String) (h : k' ≠ k) :
    ∀ kvs : List (String × Json), getKey k' (removeKey k kvs) = getKey k' kvs
  | [] => rfl
  | (k'', v) :: rest => by
      by_cases h2 : k'' = k
      · simp [h2, Ne.symm h, getKey_removeKey_ne k k' h rest]
      · by_cases h3 : k'' = k' <;> simp [h2, h3, h, getKey_removeKey_ne k k' h rest]

theorem hasKey_insertKey_ne (k k' : String) (v : Json) (h : k' ≠ k) :
    ∀ kvs : List (String × Json), hasKey k' (insertKey k v kvs) = hasKey k' kvs
  | [] => by simp [Ne.symm h]
  | (k'', v') :: rest => by
      by_cases h2 : k'' = k
      · simp [h2, Ne.symm h]
      · simp [h2, hasKey_insertKey_ne k k' v h rest]

theorem hasKey_removeKey_ne (k k' : String) (h : k' ≠ k) :
    ∀ kvs : List (String × Json), hasKey k' (removeKey k kvs) = hasKey k' kvs
  | [] => rfl
  | (k'', v) :: rest => by
      by_cases h2 : k'' = k
      · simp [h2, Ne.symm h, hasKey_removeKey_ne k k' h rest]
      · simp [h2, hasKey_removeKey_ne k k' h rest]

@[simp]
theorem hasKey_removeKey_self (k : String) :
    ∀ kvs : List (String × Json), hasKey k (removeKey k kvs) = false
  | [] => rfl
  | (k', v) :: rest => by
      by_cases h : k' = k <;> simp [h, hasKey_removeKey_self k rest]

/-- `Map::insert` of the value already present is the identity. -/
theorem insertKey_self_of_getKey (k : String) (v : Json) :
    ∀ kvs : List (String × Json), getKey k kvs = some v → insertKey k v kvs = kvs
  | (k', v') :: rest, h => by
      by_cases h2 : k' = k
      · subst h2
        simp at h
        simp [h]
      · simp [h2] at h ⊢
        exact insertKey_self_of_getKey k v rest h

/-- Every entry of an `insertKey` result is an old entry or the new one. -/
theorem mem_insertKey (k : String) (v : Json) :
    ∀ kvs : List (String × Json), ∀ kv ∈ insertKey k v kvs, kv ∈ kvs ∨ kv = (k, v)
  | [], kv, h => by simp at h; exact .inr h
  | (k', v') :: rest, kv, h => by
      by_cases h2 : k' = k
      · simp [h2] at h
        rcases h with h | h
        · exact .inr h
        · exact .inl (.tail _ h)
      · simp only [insertKey_cons, if_neg h2, List.mem_cons] at h
        rcases h with h | h
        · exact .inl (h ▸ .head _)
        · rcases mem_insertKey k v rest kv h with h3 | h3
          · exact .inl (.tail _ h3)
          · exact .inr h3

/-- The entry found by `getKey` is an entry of the list. -/
theorem getKey_mem (k : String) :
    ∀ kvs : List (String × Json), ∀ v, getKey k kvs = some v → (k, v) ∈ kvs
  | (k', v') :: rest, v, h => by
      by_cases h2 : k' = k
      · subst h2
        simp at h
        simp [h]
      · simp [h2] at h
        exact .tail _ (getKey_mem k rest v h)

theorem keysOf_insertKey_of_hasKey (k : String) (v : Json) :
    ∀ kvs : List (String × Json), hasKey k kvs = true →
      keysOf (insertKey k v kvs) = keysOf kvs
  | (k', v') :: rest, h => by
      by_cases h2 : k' = k
      · simp [h2]
      · simp [h2] at h
        simp [h2, keysOf_insertKey_of_hasKey k v rest h]

/-! ## Unfolding the passes

Each pass's list/entry recursion is a plain `map`, and each pass rewrites
an object node exactly as the source does: node rewrite first, then
recursion into the resulting values. -/

theorem stripList_eq_map :
    ∀ xs : List Json, stripList xs = xs.map remove_property_format_value_from_json
  | [] => rfl
  | x :: xs => by rw [stripList, stripList_eq_map xs, List.map_cons]

theorem stripEntries_eq :
    ∀ kvs : List (String × Json),
      stripEntries kvs =
        mapValues remove_property_format_value_from_json
          (kvs.filter keepEntry)
  | [] => rfl
  | (k, v) :: rest => by
      rw [stripEntries, stripEntries_eq rest]
      by_cases h : k ∈ strippedKeys <;> simp [keepEntry, h, List.filter_cons]

theorem anyOfList_eq_map :
    ∀ xs : List Json, anyOfList xs = xs.map replace_one_of_by_any_of
  | [] => rfl
  | x :: xs => by rw [anyOfList, anyOfList_eq_map xs, List.map_cons]

theorem anyOfEntries_eq_mapValues :
    ∀ kvs : List (String × Json),
      anyOfEntries kvs = mapValues replace_one_of_by_any_of kvs
  | [] => rfl
  | (k, v) :: rest => by
      rw [anyOfEntries, anyOfEntries_eq_mapValues rest]; rfl

theorem closeList_eq_map :
    ∀ xs : List Json, closeList xs = xs.map set_additional_properties_to_false
  | [] => rfl
  | x :: xs => by rw [closeList, closeList_eq_map xs, List.map_cons]

theorem closeEntries_eq_mapValues :
    ∀ kvs : List (String × Json),
      closeEntries kvs = mapValues set_additional_properties_to_false kvs
  | [] => rfl
  | (k, v) :: rest => by
      rw [closeEntries, closeEntries_eq_mapValues rest]; rfl

theorem requireList_eq_map :
    ∀ xs : List Json, requireList xs = xs.map enforce_all_required_properties
  | [] => rfl
  | x :: xs => by rw [requireList, requireList_eq_map xs, List.map_cons]

theorem requireEntries_eq_mapValues :
    ∀ kvs : List (String × Json),
      requireEntries kvs = mapValues enforce_all_required_properties kvs
  | [] => rfl
  | (k, v) :: rest => by
      rw [requireEntries, requireEntries_eq_mapValues rest]; rfl

/-- `mapValues` passes through `removeKey`. -/
theorem mapValues_removeKey (f : Json → Json) (k : String)
    (kvs : List (String × Json)) :
    mapValues f (removeKey k kvs) = removeKey k (mapValues f kvs) := by
  induction kvs with
  | nil => rfl
  | cons kv rest ih =>
      by_cases h : kv.1 = k <;> simp [h, ih]

/-- `mapValues` passes through `insertKey`, transforming the inserted
value. -/
theorem mapValues_insertKey (f : Json → Json) (k : String) (v : Json) :
    ∀ kvs : List (String × Json),
      mapValues f (insertKey k v kvs) = insertKey k (f v) (mapValues f kvs)
  | [] => rfl
  | (k', v') :: rest => by
      by_cases h : k' = k <;> simp [h, mapValues_insertKey f k v rest]

/-- `mapValues` passes through `moveKey`, transforming the moved value. -/
theorem mapValues_moveKey (f : Json → Json) (src dst : String)
    (kvs : List (String × Json)) :
    mapValues f (moveKey src dst kvs) = moveKey src dst (mapValues f kvs) := by
  unfold moveKey
  rw [getKey_mapValues]
  cases h : getKey src kvs with
  | none => rfl
  | some v => simp [mapValues_insertKey, mapValues_removeKey]

/-! ### Scalar and shape behaviour of the passes -/

@[simp]
theorem strip_null : remove_property_format_value_from_json .null = .null := rfl

@[simp]
theorem strip_bool (b : Bool) :
    remove_property_format_value_from_json (.bool b) = .bool b := rfl

@[simp]
theorem strip_num (n : Int) :
    remove_property_format_value_from_json (.num n) = .num n := rfl

@[simp]
theorem strip_str (s : String) :
    remove_property_format_value_from_json (.str s) = .str s := rfl

@[simp]
theorem anyOf_null : replace_one_of_by_any_of .null = .null := rfl

@[simp]
theorem anyOf_bool (b : Bool) : replace_one_of_by_any_of (.bool b) = .bool b := rfl

@[simp]
theorem anyOf_num (n : Int) : replace_one_of_by_any_of (.num n) = .num n := rfl

@[simp]
theorem anyOf_str (s : String) : replace_one_of_by_any_of (.str s) = .str s := rfl

@[simp]
theorem close_null : set_additional_properties_to_false .null = .null := rfl

@[simp]
theorem close_bool (b : Bool) :
    set_additional_properties_to_false (.bool b) = .bool b := rfl

@[simp]
theorem close_num (n : Int) :
    set_additional_properties_to_false (.num n) = .num n := rfl

@[simp]
theorem close_str (s : String) :
    set_additional_properties_to_false (.str s) = .str s := rfl

@[simp]
theorem require_null : enforce_all_required_properties .null = .null := rfl

@[simp]
theorem require_bool (b : Bool) :
    enforce_all_required_properties (.bool b) = .bool b := rfl

@[simp]
theorem require_num (n : Int) :
    enforce_all_required_properties (.num n) = .num n := rfl

@[simp]
theorem require_str (s : String) :
    enforce_all_required_properties (.str s) = .str s := rfl

@[simp]
theorem strip_arr (xs : List Json) :
    remove_property_format_value_from_json (.arr xs) =
      .arr (xs.map remove_property_format_value_from_json) := by
  rw [remove_property_format_value_from_json, stripList_eq_map]

@[simp]
theorem anyOf_arr (xs : List Json) :
    replace_one_of_by_any_of (.arr xs) = .arr (xs.map replace_one_of_by_any_of) := by
  rw [replace_one_of_by_any_of, anyOfList_eq_map]

@[simp]
theorem close_arr (xs : List Json) :
    set_additional_properties_to_false (.arr xs) =
      .arr (xs.map set_additional_properties_to_false) := by
  rw [set_additional_properties_to_false, closeList_eq_map]

@[simp]
theorem require_arr (xs : List Json) :
    enforce_all_required_properties (.arr xs) =
      .arr (xs.map enforce_all_required_properties) := by
  rw [enforce_all_required_properties, requireList_eq_map]

theorem hasKey_of_getKey (k : String) :
    ∀ kvs : List (String × Json), ∀ v, getKey k kvs = some v → hasKey k kvs = true
  | (k', v') :: rest, v, h => by
      by_cases h2 : k' = k
      · simp [h2]
      · simp [h2] at h ⊢
        exact hasKey_of_getKey k rest v h

/-- `requireNode` never changes the key list of the node. -/
theorem keysOf_requireNode (kvs : List (String × Json)) :
    keysOf (requireNode kvs) = keysOf kvs := by
  unfold requireNode
  cases hp : getKey "properties" kvs with
  | none => rfl
  | some p =>
      cases p <;> try rfl
      cases hr : getKey "required" kvs with
      | none => rfl
      | some r =>
          cases r <;> try rfl
          exact keysOf_insertKey_of_hasKey _ _ _ (hasKey_of_getKey _ _ _ hr)

/-- Each pass fixes strings, and produces a string only from that string. -/
theorem strip_eq_str_iff (x : Json) (s : String) :
    remove_property_format_value_from_json x = .str s ↔ x = .str s := by
  cases x <;> simp [remove_property_format_value_from_json]

theorem anyOf_eq_str_iff (x : Json) (s : String) :
    replace_one_of_by_any_of x = .str s ↔ x = .str s := by
  cases x <;> simp [replace_one_of_by_any_of]

theorem close_eq_str_iff (x : Json) (s : String) :
    set_additional_properties_to_false x = .str s ↔ x = .str s := by
  cases x with
  | obj kvs =>
      simp only [set_additional_properties_to_false]
      constructor
      · intro h
        by_cases h2 : getKey "type" kvs = some (.str "object") <;> simp [h2] at h
      · intro h
        exact absurd h (by simp)
  | _ => simp [set_additional_properties_to_false]

theorem require_eq_str_iff (x : Json) (s : String) :
    enforce_all_required_properties x = .str s ↔ x = .str s := by
  cases x <;> simp [enforce_all_required_properties]

/-! ### `pushMissing` lemmas -/

@[simp]
theorem pushMissing_nilKeys (r : List Json) : pushMissing r [] = r := rfl

theorem pushMissing_cons (r : List Json) (k : String) (ks : List String) :
    pushMissing r (k :: ks) =
      if (Json.str k) ∈ r then pushMissing r ks
      else pushMissing (r ++ [Json.str k]) ks := by
  unfold pushMissing
  by_cases h : (Json.str k) ∈ r <;> simp [h]

theorem mem_pushMissing_of_mem (x : Json) :
    ∀ (ks : List String) (r : List Json), x ∈ r → x ∈ pushMissing r ks
  | [], r, h => h
  | k :: ks, r, h => by
      rw [pushMissing_cons]
      by_cases h2 : (Json.str k) ∈ r
      · simp only [if_pos h2]
        exact mem_pushMissing_of_mem x ks r h
      · simp only [if_neg h2]
        exact mem_pushMissing_of_mem x ks _ (List.mem_append_left _ h)

theorem str_mem_pushMissing :
    ∀ (ks : List String) (r : List Json), ∀ k ∈ ks, (Json.str k) ∈ pushMissing r ks
  | k' :: ks, r, k, h => by
      rw [pushMissing_cons]
      rcases List.mem_cons.mp h with h2 | h2
      · subst h2
        by_cases h3 : (Json.str k) ∈ r
        · simp only [if_pos h3]
          exact mem_pushMissing_of_mem _ ks r h3
        · simp only [if_neg h3]
          exact mem_pushMissing_of_mem _ ks _ (List.mem_append_right _ (by simp))
      · by_cases h3 : (Json.str k') ∈ r <;> simp only [if_pos, if_neg, h3] <;>
          exact str_mem_pushMissing ks _ k h2

theorem pushMissing_eq_self :
    ∀ (ks : List String) (r : List Json), (∀ k ∈ ks, (Json.str k) ∈ r) →
      pushMissing r ks = r
  | [], r, _ => rfl
  | k :: ks, r, h => by
      rw [pushMissing_cons, if_pos (h k (by simp))]
      exact pushMissing_eq_self ks r (fun k' hk' => h k' (by simp [hk']))

/-- `pushMissing` appends a duplicate-free block of fresh property names
after the existing entries. -/
theorem pushMissing_append_struct :
    ∀ (ks : List String) (r : List Json),
      ∃ t, pushMissing r ks = r ++ t ∧ t.Nodup ∧ (∀ x ∈ t, x ∉ r) ∧
        (∀ x ∈ t, ∃ k ∈ ks, x = Json.str k)
  | [], r => ⟨[], by simp⟩
  | k :: ks, r => by
      rw [pushMissing_cons]
      by_cases h : (Json.str k) ∈ r
      · rcases pushMissing_append_struct ks r with ⟨t, h1, h2, h3, h4⟩
        exact ⟨t, by simp [h, h1], h2, h3,
          fun x hx => by rcases h4 x hx with ⟨k', hk', he⟩; exact ⟨k', by simp [hk'], he⟩⟩
      · rcases pushMissing_append_struct ks (r ++ [Json.str k]) with ⟨t, h1, h2, h3, h4⟩
        refine ⟨Json.str k :: t, ?_, ?_, ?_, ?_⟩
        · simp only [if_neg h, h1, List.append_assoc, List.singleton_append]
        · exact List.nodup_cons.mpr ⟨fun hc => h3 _ hc (by simp), h2⟩
        · intro x hx
          rcases List.mem_cons.mp hx with h5 | h5
          · exact h5 ▸ h
          · intro hc
            exact h3 x h5 (List.mem_append_left _ hc)
        · intro x hx
          rcases List.mem_cons.mp hx with h5 | h5
          · exact ⟨k, by simp, h5⟩
          · rcases h4 x h5 with ⟨k', hk', he⟩
            exact ⟨k', by simp [hk'], he⟩

theorem mem_pushMissing (x : Json) (ks : List String) (r : List Json)
    (h : x ∈ pushMissing r ks) : x ∈ r ∨ ∃ k ∈ ks, x = Json.str k := by
  rcases pushMissing_append_struct ks r with ⟨t, h1, _, _, h4⟩
  rw [h1] at h
  rcases List.mem_append.mp h with h5 | h5
  · exact .inl h5
  · exact .inr (h4 x h5)

/-- Mapping a string-fixing, string-reflecting function over the `required`
array commutes with `pushMissing`. -/
theorem pushMissing_map (f : Json → Json) (hf : ∀ x s, f x = .str s ↔ x = .str s) :
    ∀ (ks : List String) (r : List Json),
      pushMissing (r.map f) ks = (pushMissing r ks).map f
  | [], r => rfl
  | k :: ks, r => by
      rw [pushMissing_cons, pushMissing_cons]
      have hmem : (Json.str k) ∈ r.map f ↔ (Json.str k) ∈ r := by
        constructor
        · intro h
          rcases List.mem_map.mp h with ⟨x, hx, he⟩
          exact ((hf x k).mp he) ▸ hx
        · intro h
          exact List.mem_map.mpr ⟨Json.str k, h, (hf (Json.str k) k).mpr rfl⟩
      by_cases h : (Json.str k) ∈ r
      · rw [if_pos (hmem.mpr h), if_pos h]
        exact pushMissing_map f hf ks r
      · rw [if_neg (fun hc => h (hmem.mp hc)), if_neg h, ← pushMissing_map f hf ks]
        congr 1
        simp [(hf (Json.str k) k).mpr rfl]

/-! ### Source-order unfoldings of the object case

These are the node rewrites exactly as `src/lib.rs` performs them: the
node-level key rewrite happens first, then the pass recurses into every
value of the rewritten node. -/

/-- `remove_property_format_value_from_json` on an object: remove the
nineteen keys, then recurse into the remaining values. -/
theorem remove_property_format_value_from_json_obj (kvs : List (String × Json)) :
    remove_property_format_value_from_json (.obj kvs) =
      .obj (mapValues remove_property_format_value_from_json
        (kvs.filter keepEntry)) := by
  rw [remove_property_format_value_from_json, stripEntries_eq]

/-- `replace_one_of_by_any_of` on an object: move `oneOf` under `anyOf`,
then `allOf` under `anyOf`, then recurse into the resulting values. -/
theorem replace_one_of_by_any_of_obj (kvs : List (String × Json)) :
    replace_one_of_by_any_of (.obj kvs) =
      .obj (mapValues replace_one_of_by_any_of
        (moveKey "allOf" "anyOf" (moveKey "oneOf" "anyOf" kvs))) := by
  rw [replace_one_of_by_any_of, anyOfEntries_eq_mapValues,
    mapValues_moveKey, mapValues_moveKey]

/-- `set_additional_properties_to_false` on an object: if `type` is the
string `"object"`, insert `additionalProperties: false`, then recurse into
the resulting values (the inserted `false` is a scalar, so recursing
before or after the insert is the same). -/
theorem set_additional_properties_to_false_obj (kvs : List (String × Json)) :
    set_additional_properties_to_false (.obj kvs) =
      .obj (mapValues set_additional_properties_to_false
        (if getKey "type" kvs = some (.str "object")
         then insertKey "additionalProperties" (.bool false) kvs
         else kvs)) := by
  rw [set_additional_properties_to_false]
  by_cases h : getKey "type" kvs = some (.str "object")
  · rw [if_pos h, if_pos h, closeEntries_eq_mapValues, mapValues_insertKey, close_bool]
  · rw [if_neg h, if_neg h, closeEntries_eq_mapValues]

/-- `requireNode` when the node has an object-valued `properties` and an
array-valued `required`. -/
theorem requireNode_of_both (kvs pk : List (String × Json)) (l : List Json)
    (hp : getKey "properties" kvs = some (.obj pk))
    (hr : getKey "required" kvs = some (.arr l)) :
    requireNode kvs = insertKey "required" (.arr (pushMissing l (keysOf pk))) kvs := by
  unfold requireNode
  rw [hp, hr]

/-- `requireNode` is the identity when `properties` is missing or not an
object, or `required` is missing or not an array. -/
theorem requireNode_id (kvs : List (String × Json))
    (h : ∀ pk l, getKey "properties" kvs = some (.obj pk) →
      getKey "required" kvs ≠ some (.arr l)) :
    requireNode kvs = kvs := by
  unfold requireNode
  cases hp : getKey "properties" kvs with
  | none => rfl
  | some p =>
      cases p with
      | obj pk =>
          cases hr : getKey "required" kvs with
          | none => rfl
          | some r =>
              cases r with
              | arr l => exact absurd hr (h pk l hp)
              | null => rfl
              | bool b => rfl
              | num n => rfl
              | str s => rfl
              | obj o => rfl
      | null => rfl
      | bool b => rfl
      | num n => rfl
      | str s => rfl
      | arr l => rfl

/-- `enforce_all_required_properties` on an object: push the missing
property names onto `required`, then recurse into the resulting values. -/
theorem enforce_all_required_properties_obj (kvs : List (String × Json)) :
    enforce_all_required_properties (.obj kvs) =
      .obj (mapValues enforce_all_required_properties (requireNode kvs)) := by
  rw [enforce_all_required_properties, requireEntries_eq_mapValues]
  congr 1
  cases hp : getKey "properties" kvs with
  | none =>
      rw [requireNode_id kvs (by simp [hp]), requireNode_id]
      intro pk l h
      rw [getKey_mapValues, hp] at h
      simp at h
  | some p =>
      cases p with
      | obj pk =>
          cases hr : getKey "required" kvs with
          | none =>
              rw [requireNode_id kvs (by simp [hr]), requireNode_id]
              intro pk' l h
              rw [getKey_mapValues, hr]
              simp
          | some r =>
              cases r with
              | arr l =>
                  have hp2 : getKey "properties"
                      (mapValues enforce_all_required_properties kvs) =
                      some (.obj (requireNode (requireEntries pk))) := by
                    rw [getKey_mapValues, hp]
                    simp [enforce_all_required_properties]
                  have hr2 : getKey "required"
                      (mapValues enforce_all_required_properties kvs) =
                      some (.arr (l.map enforce_all_required_properties)) := by
                    rw [getKey_mapValues, hr]
                    simp
                  rw [requireNode_of_both _ _ _ hp2 hr2,
                    requireNode_of_both _ _ _ hp hr, mapValues_insertKey]
                  congr 2
                  rw [keysOf_requireNode, requireEntries_eq_mapValues, keysOf_mapValues,
                    pushMissing_map enforce_all_required_properties require_eq_str_iff,
                    requireList_eq_map]
              | null =>
                  rw [requireNode_id kvs (by simp [hr]), requireNode_id]
                  intro pk' l h
                  rw [getKey_mapValues, hr]
                  simp
              | bool b =>
                  rw [requireNode_id kvs (by simp [hr]), requireNode_id]
                  intro pk' l h
                  rw [getKey_mapValues, hr]
                  simp
              | num n =>
                  rw [requireNode_id kvs (by simp [hr]), requireNode_id]
                  intro pk' l h
                  rw [getKey_mapValues, hr]
                  simp
              | str s =>
                  rw [requireNode_id kvs (by simp [hr]), requireNode_id]
                  intro pk' l h
                  rw [getKey_mapValues, hr]
                  simp
              | obj o =>
                  rw [requireNode_id kvs (by simp [hr]), requireNode_id]
                  intro pk' l h
                  rw [getKey_mapValues, hr]
                  simp [enforce_all_required_properties]
      | null =>
          rw [requireNode_id kvs (by simp [hp]), requireNode_id]
          intro pk l h
          rw [getKey_mapValues, hp] at h
          simp at h
      | bool b =>
          rw [requireNode_id kvs (by simp [hp]), requireNode_id]
          intro pk l h
          rw [getKey_mapValues, hp] at h
          simp at h
      | num n =>
          rw [requireNode_id kvs (by simp [hp]), requireNode_id]
          intro pk l h
          rw [getKey_mapValues, hp] at h
          simp at h
      | str s =>
          rw [requireNode_id kvs (by simp [hp]), requireNode_id]
          intro pk l h
          rw [getKey_mapValues, hp] at h
          simp at h
      | arr l2 =>
          rw [requireNode_id kvs (by simp [hp]), requireNode_id]
          intro pk l h
          rw [getKey_mapValues, hp] at h
          simp at h

/-! ## Quantifying over every object node of a document -/

mutual

/-- `allObjNodes p x` holds when every object node of `x` — at any depth,
including object nodes nested inside arrays — satisfies `p` on its entry
list.  Scalars have no object nodes. -/
def allObjNodes (p : List (String × Json) → Bool) : Json → Bool
  | .obj kvs => p kvs && allObjEntries p kvs
  | .arr xs => allObjList p xs
  | _ => true

/-- `allObjNodes` over the elements of an array. -/
def allObjList (p : List (String × Json) → Bool) : List Json → Bool
  | [] => true
  | x :: xs => allObjNodes p x && allObjList p xs

/-- `allObjNodes` over the values of an object. -/
def allObjEntries (p : List (String × Json) → Bool) : List (String × Json) → Bool
  | [] => true
  | kv :: rest => allObjNodes p kv.2 && allObjEntries p rest

end

theorem allObjList_eq (p : List (String × Json) → Bool) :
    ∀ xs : List Json, allObjList p xs = xs.all (allObjNodes p)
  | [] => rfl
  | x :: xs => by rw [allObjList, allObjList_eq p xs, List.all_cons]

theorem allObjEntries_eq (p : List (String × Json) → Bool) :
    ∀ kvs : List (String × Json),
      allObjEntries p kvs = kvs.all (fun kv => allObjNodes p kv.2)
  | [] => rfl
  | kv :: rest => by rw [allObjEntries, allObjEntries_eq p rest, List.all_cons]

@[simp]
theorem allObjNodes_null (p : List (String × Json) → Bool) :
    allObjNodes p .null = true := rfl

@[simp]
theorem allObjNodes_bool (p : List (String × Json) → Bool) (b : Bool) :
    allObjNodes p (.bool b) = true := rfl

@[simp]
theorem allObjNodes_num (p : List (String × Json) → Bool) (n : Int) :
    allObjNodes p (.num n) = true := rfl

@[simp]
theorem allObjNodes_str (p : List (String × Json) → Bool) (s : String) :
    allObjNodes p (.str s) = true := rfl

@[simp]
theorem allObjNodes_arr (p : List (String × Json) → Bool) (xs : List Json) :
    allObjNodes p (.arr xs) = xs.all (allObjNodes p) := by
  rw [allObjNodes, allObjList_eq]

@[simp]
theorem allObjNodes_obj (p : List (String × Json) → Bool)
    (kvs : List (String × Json)) :
    allObjNodes p (.obj kvs) =
      (p kvs && kvs.all (fun kv => allObjNodes p kv.2)) := by
  rw [allObjNodes, allObjEntries_eq]

/-- Structural induction over `Json` with membership hypotheses for the
children of arrays and objects. -/
theorem Json.inductionOn {P : Json → Prop}
    (hnull : P .null) (hbool : ∀ b, P (.bool b)) (hnum : ∀ n, P (.num n))
    (hstr : ∀ s, P (.str s))
    (harr : ∀ xs, (∀ x ∈ xs, P x) → P (.arr xs))
    (hobj : ∀ kvs, (∀ kv ∈ kvs, P kv.2) → P (.obj kvs)) :
    ∀ j, P j
  | .null => hnull
  | .bool b => hbool b
  | .num n => hnum n
  | .str s => hstr s
  | .arr xs =>
      harr xs (fun x hx => Json.inductionOn hnull hbool hnum hstr harr hobj x)
  | .obj kvs =>
      hobj kvs (fun kv hkv => Json.inductionOn hnull hbool hnum hstr harr hobj kv.2)
termination_by j => sizeOf j
decreasing_by
  · have := List.sizeOf_lt_of_mem hx
    simp only [Json.arr.sizeOf_spec]
    omega
  · have h1 := List.sizeOf_lt_of_mem hkv
    rcases kv with ⟨a, b⟩
    simp only [Prod.mk.sizeOf_spec] at h1
    simp only [Json.obj.sizeOf_spec]
    omega

/-! ## The normalized-document invariants -/

/-- No key of this node is one of the nineteen stripped keywords. -/
def noStripB (kvs : List (String × Json)) : Bool :=
  (keysOf kvs).all (fun k => !(strippedKeys.contains k))

/-- This node has neither `oneOf` nor `allOf`. -/
def noUnionB (kvs : List (String × Json)) : Bool :=
  !(hasKey "oneOf" kvs || hasKey "allOf" kvs)

/-- If this node's `type` is the string `"object"`, its
`additionalProperties` is the boolean `false`. -/
def closedB (kvs : List (String × Json)) : Bool :=
  decide (getKey "type" kvs = some (.str "object") →
    getKey "additionalProperties" kvs = some (.bool false))

/-- If this node has an object-valued `properties` and an array-valued
`required`, every property name occurs in the `required` array. -/
def reqOkB (kvs : List (String × Json)) : Bool :=
  match getKey "properties" kvs, getKey "required" kvs with
  | some (.obj pk), some (.arr r) => (keysOf pk).all (fun k => decide ((Json.str k) ∈ r))
  | _, _ => true

theorem reqOkB_of_both (kvs pk : List (String × Json)) (l : List Json)
    (hp : getKey "properties" kvs = some (.obj pk))
    (hr : getKey "required" kvs = some (.arr l)) :
    reqOkB kvs = (keysOf pk).all (fun k => decide ((Json.str k) ∈ l)) := by
  unfold reqOkB
  rw [hp, hr]

theorem reqOkB_of_not_both (kvs : List (String × Json))
    (h : ∀ pk l, getKey "properties" kvs = some (.obj pk) →
      getKey "required" kvs ≠ some (.arr l)) :
    reqOkB kvs = true := by
  unfold reqOkB
  cases hp : getKey "properties" kvs with
  | none => rfl
  | some p =>
      cases p with
      | obj pk =>
          cases hr : getKey "required" kvs with
          | none => rfl
          | some r =>
              cases r with
              | arr l => exact absurd hr (h pk l hp)
              | null => rfl
              | bool b => rfl
              | num n => rfl
              | str s => rfl
              | obj o => rfl
      | null => rfl
      | bool b => rfl
      | num n => rfl
      | str s => rfl
      | arr l => rfl

/-! ### Further operation lemmas -/

theorem getKey_eq_none_of_hasKey_false (k : String) :
    ∀ kvs : List (String × Json), hasKey k kvs = false → getKey k kvs = none
  | [], _ => rfl
  | (k', v) :: rest, h => by
      by_cases h2 : k' = k
      · simp [h2] at h
      · simp [h2] at h ⊢
        exact getKey_eq_none_of_hasKey_false k rest h

theorem hasKey_false_of_getKey_none (k : String) :
    ∀ kvs : List (String × Json), getKey k kvs = none → hasKey k kvs = false
  | [], _ => rfl
  | (k', v) :: rest, h => by
      by_cases h2 : k' = k
      · simp [h2] at h
      · simp [h2] at h ⊢
        exact hasKey_false_of_getKey_none k rest h

/-- Every value occurring in a `moveKey` result already occurs as a value
of the input node. -/
theorem val_mem_moveKey (src dst : String) (kvs : List (String × Json)) :
    ∀ kv ∈ moveKey src dst kvs, ∃ kv' ∈ kvs, kv.2 = kv'.2 := by
  unfold moveKey
  cases h : getKey src kvs with
  | none => exact fun kv hkv => ⟨kv, hkv, rfl⟩
  | some v =>
      intro kv hkv
      rcases mem_insertKey dst v _ kv hkv with h2 | h2
      · exact ⟨kv, List.mem_of_mem_filter h2, rfl⟩
      · exact ⟨(src, v), getKey_mem src kvs v h, by rw [h2]⟩

theorem hasKey_moveKey_other (src dst k : String) (h1 : k ≠ src) (h2 : k ≠ dst)
    (kvs : List (String × Json)) : hasKey k (moveKey src dst kvs) = hasKey k kvs := by
  unfold moveKey
  cases h : getKey src kvs with
  | none => rfl
  | some v => rw [hasKey_insertKey_ne dst k v h2, hasKey_removeKey_ne src k h1]

theorem hasKey_moveKey_src (src dst : String) (h1 : src ≠ dst)
    (kvs : List (String × Json)) : hasKey src (moveKey src dst kvs) = false := by
  unfold moveKey
  cases h : getKey src kvs with
  | none => exact hasKey_false_of_getKey_none src kvs h
  | some v => rw [hasKey_insertKey_ne dst src v h1, hasKey_removeKey_self]

theorem getKey_moveKey_other (src dst k : String) (h1 : k ≠ src) (h2 : k ≠ dst)
    (kvs : List (String × Json)) : getKey k (moveKey src dst kvs) = getKey k kvs := by
  unfold moveKey
  cases h : getKey src kvs with
  | none => rfl
  | some v => rw [getKey_insertKey_ne dst k v h2, getKey_removeKey_ne src k h1]

theorem all_mapValues (q : Json → Bool) (f : Json → Json) :
    ∀ l : List (String × Json),
      (mapValues f l).all (fun kv => q kv.2) = l.all (fun kv => q (f kv.2))
  | [] => rfl
  | kv :: rest => by simp [all_mapValues q f rest]

theorem mem_keysOf_insertKey (a k : String) (v : Json) :
    ∀ kvs : List (String × Json),
      a ∈ keysOf (insertKey k v kvs) → a ∈ keysOf kvs ∨ a = k
  | [], h => by simp at h; exact .inr h
  | (k', v') :: rest, h => by
      by_cases h2 : k' = k
      · simp [h2] at h
        rcases h with h | h
        · exact .inr h
        · exact .inl (by simp [h])
      · simp [h2] at h
        rcases h with h | h
        · exact .inl (by simp [h])
        · rcases mem_keysOf_insertKey a k v rest h with h3 | h3
          · exact .inl (by simp [h3])
          · exact .inr h3

theorem mem_keysOf_removeKey (a k : String) (kvs : List (String × Json))
    (h : a ∈ keysOf (removeKey k kvs)) : a ∈ keysOf kvs := by
  rcases List.mem_map.mp h with ⟨kv, hkv, he⟩
  exact he ▸ List.mem_map.mpr ⟨kv, List.mem_of_mem_filter hkv, rfl⟩

theorem mem_keysOf_moveKey (a src dst : String) (kvs : List (String × Json))
    (h : a ∈ keysOf (moveKey src dst kvs)) : a ∈ keysOf kvs ∨ a = dst := by
  unfold moveKey at h
  cases h2 : getKey src kvs with
  | none => rw [h2] at h; exact .inl h
  | some v =>
      rw [h2] at h
      rcases mem_keysOf_insertKey a dst v _ h with h3 | h3
      · exact .inl (mem_keysOf_removeKey a src kvs h3)
      · exact .inr h3

theorem allObjNodes_trivial : ∀ x : Json, allObjNodes (fun _ => true) x = true := by
  intro x
  induction x using Json.inductionOn with
  | hnull => rfl
  | hbool b => rfl
  | hnum n => rfl
  | hstr s => rfl
  | harr xs ih => simp [List.all_eq_true]; exact ih
  | hobj kvs ih =>
      simp [List.all_eq_true]
      exact fun a b hab => ih (a, b) hab

theorem mapValues_id_of (f : Json → Json) :
    ∀ kvs : List (String × Json), (∀ kv ∈ kvs, f kv.2 = kv.2) → mapValues f kvs = kvs
  | [], _ => rfl
  | kv :: rest, h => by
      rw [mapValues_cons, h kv (by simp),
        mapValues_id_of f rest (fun kv' h' => h kv' (by simp [h']))]

/-- Every value occurring in `requireNode kvs` is a value of `kvs`, or it
is the rebuilt `required` array. -/
theorem mem_requireNode (kvs : List (String × Json)) :
    ∀ kv ∈ requireNode kvs, kv ∈ kvs ∨
      ∃ (pk : List (String × Json)) (r : List Json),
        getKey "properties" kvs = some (.obj pk) ∧
        getKey "required" kvs = some (.arr r) ∧
        kv = ("required", .arr (pushMissing r (keysOf pk))) := by
  intro kv hkv
  by_cases hb : ∃ (pk : List (String × Json)) (r : List Json),
      getKey "properties" kvs = some (.obj pk) ∧ getKey "required" kvs = some (.arr r)
  · rcases hb with ⟨pk, r, hp, hr⟩
    rw [requireNode_of_both kvs pk r hp hr] at hkv
    rcases mem_insertKey _ _ _ kv hkv with h | h
    · exact .inl h
    · exact .inr ⟨pk, r, hp, hr, h⟩
  · rw [requireNode_id kvs (fun pk l hp hr => hb ⟨pk, l, hp, hr⟩)] at hkv
    exact .inl hkv

/-! ## Generic traversal lemmas

For each pass: if the node-level rewrite sends a `q`-node to a `p`-node,
the whole pass sends a document whose object nodes all satisfy `q` to one
whose object nodes all satisfy `p`; and if the node-level rewrite fixes
every `p`-node, the pass fixes every document whose object nodes satisfy
`p`. -/

theorem allObjNodes_strip_of (p q : List (String × Json) → Bool)
    (hnode : ∀ kvs, q kvs = true →
      p (mapValues remove_property_format_value_from_json
          (kvs.filter keepEntry)) = true) :
    ∀ x, allObjNodes q x = true →
      allObjNodes p (remove_property_format_value_from_json x) = true := by
  intro x
  induction x using Json.inductionOn with
  | hnull => intro _; rfl
  | hbool b => intro _; rfl
  | hnum n => intro _; rfl
  | hstr s => intro _; rfl
  | harr xs ih =>
      intro h
      simp only [allObjNodes_arr, List.all_eq_true] at h
      simp only [strip_arr, allObjNodes_arr, List.all_map, List.all_eq_true,
        Function.comp]
      exact fun x hx => ih x hx (h x hx)
  | hobj kvs ih =>
      intro h
      simp only [allObjNodes_obj, Bool.and_eq_true, List.all_eq_true] at h
      rw [remove_property_format_value_from_json_obj]
      simp only [allObjNodes_obj, Bool.and_eq_true]
      refine ⟨hnode kvs h.1, ?_⟩
      rw [all_mapValues]
      simp only [List.all_eq_true]
      intro kv hkv
      exact ih kv (List.mem_of_mem_filter hkv) (h.2 kv (List.mem_of_mem_filter hkv))

theorem strip_id_of (p : List (String × Json) → Bool)
    (hnode : ∀ kvs, p kvs = true →
      kvs.filter keepEntry = kvs) :
    ∀ x, allObjNodes p x = true → remove_property_format_value_from_json x = x := by
  intro x
  induction x using Json.inductionOn with
  | hnull => intro _; rfl
  | hbool b => intro _; rfl
  | hnum n => intro _; rfl
  | hstr s => intro _; rfl
  | harr xs ih =>
      intro h
      simp only [allObjNodes_arr, List.all_eq_true] at h
      rw [strip_arr, List.map_congr_left (fun x hx => ih x hx (h x hx)), List.map_id']
  | hobj kvs ih =>
      intro h
      simp only [allObjNodes_obj, Bool.and_eq_true, List.all_eq_true] at h
      rw [remove_property_format_value_from_json_obj, hnode kvs h.1,
        mapValues_id_of _ kvs (fun kv hkv => ih kv hkv (h.2 kv hkv))]

theorem allObjNodes_anyOf_of (p q : List (String × Json) → Bool)
    (hnode : ∀ kvs, q kvs = true →
      p (mapValues replace_one_of_by_any_of
          (moveKey "allOf" "anyOf" (moveKey "oneOf" "anyOf" kvs))) = true) :
    ∀ x, allObjNodes q x = true →
      allObjNodes p (replace_one_of_by_any_of x) = true := by
  intro x
  induction x using Json.inductionOn with
  | hnull => intro _; rfl
  | hbool b => intro _; rfl
  | hnum n => intro _; rfl
  | hstr s => intro _; rfl
  | harr xs ih =>
      intro h
      simp only [allObjNodes_arr, List.all_eq_true] at h
      simp only [anyOf_arr, allObjNodes_arr, List.all_map, List.all_eq_true,
        Function.comp]
      exact fun x hx => ih x hx (h x hx)
  | hobj kvs ih =>
      intro h
      simp only [allObjNodes_obj, Bool.and_eq_true, List.all_eq_true] at h
      rw [replace_one_of_by_any_of_obj]
      simp only [allObjNodes_obj, Bool.and_eq_true]
      refine ⟨hnode kvs h.1, ?_⟩
      rw [all_mapValues]
      simp only [List.all_eq_true]
      intro kv hkv
      rcases val_mem_moveKey _ _ _ kv hkv with ⟨kv1, hkv1, he1⟩
      rcases val_mem_moveKey _ _ _ kv1 hkv1 with ⟨kv2, hkv2, he2⟩
      rw [he1, he2]
      exact ih kv2 hkv2 (h.2 kv2 hkv2)

theorem anyOf_id_of (p : List (String × Json) → Bool)
    (hnode : ∀ kvs, p kvs = true →
      moveKey "allOf" "anyOf" (moveKey "oneOf" "anyOf" kvs) = kvs) :
    ∀ x, allObjNodes p x = true → replace_one_of_by_any_of x = x := by
  intro x
  induction x using Json.inductionOn with
  | hnull => intro _; rfl
  | hbool b => intro _; rfl
  | hnum n => intro _; rfl
  | hstr s => intro _; rfl
  | harr xs ih =>
      intro h
      simp only [allObjNodes_arr, List.all_eq_true] at h
      rw [anyOf_arr, List.map_congr_left (fun x hx => ih x hx (h x hx)), List.map_id']
  | hobj kvs ih =>
      intro h
      simp only [allObjNodes_obj, Bool.and_eq_true, List.all_eq_true] at h
      rw [replace_one_of_by_any_of_obj, hnode kvs h.1,
        mapValues_id_of _ kvs (fun kv hkv => ih kv hkv (h.2 kv hkv))]

theorem allObjNodes_close_of (p q : List (String × Json) → Bool)
    (hnode : ∀ kvs, q kvs = true →
      p (mapValues set_additional_properties_to_false
          (if getKey "type" kvs = some (.str "object")
           then insertKey "additionalProperties" (.bool false) kvs
           else kvs)) = true) :
    ∀ x, allObjNodes q x = true →
      allObjNodes p (set_additional_properties_to_false x) = true := by
  intro x
  induction x using Json.inductionOn with
  | hnull => intro _; rfl
  | hbool b => intro _; rfl
  | hnum n => intro _; rfl
  | hstr s => intro _; rfl
  | harr xs ih =>
      intro h
      simp only [allObjNodes_arr, List.all_eq_true] at h
      simp only [close_arr, allObjNodes_arr, List.all_map, List.all_eq_true,
        Function.comp]
      exact fun x hx => ih x hx (h x hx)
  | hobj kvs ih =>
      intro h
      simp only [allObjNodes_obj, Bool.and_eq_true, List.all_eq_true] at h
      rw [set_additional_properties_to_false_obj]
      simp only [allObjNodes_obj, Bool.and_eq_true]
      refine ⟨hnode kvs h.1, ?_⟩
      rw [all_mapValues]
      simp only [List.all_eq_true]
      intro kv hkv
      by_cases hc : getKey "type" kvs = some (Json.str "object")
      · rw [if_pos hc] at hkv
        rcases mem_insertKey _ _ _ kv hkv with h2 | h2
        · exact ih kv h2 (h.2 kv h2)
        · rw [h2]
          rfl
      · rw [if_neg hc] at hkv
        exact ih kv hkv (h.2 kv hkv)

theorem close_id_of (p : List (String × Json) → Bool)
    (hnode : ∀ kvs, p kvs = true →
      (if getKey "type" kvs = some (.str "object")
       then insertKey "additionalProperties" (.bool false) kvs
       else kvs) = kvs) :
    ∀ x, allObjNodes p x = true → set_additional_properties_to_false x = x := by
  intro x
  induction x using Json.inductionOn with
  | hnull => intro _; rfl
  | hbool b => intro _; rfl
  | hnum n => intro _; rfl
  | hstr s => intro _; rfl
  | harr xs ih =>
      intro h
      simp only [allObjNodes_arr, List.all_eq_true] at h
      rw [close_arr, List.map_congr_left (fun x hx => ih x hx (h x hx)), List.map_id']
  | hobj kvs ih =>
      intro h
      simp only [allObjNodes_obj, Bool.and_eq_true, List.all_eq_true] at h
      rw [set_additional_properties_to_false_obj, hnode kvs h.1,
        mapValues_id_of _ kvs (fun kv hkv => ih kv hkv (h.2 kv hkv))]

theorem allObjNodes_require_of (p q : List (String × Json) → Bool)
    (hnode : ∀ kvs, q kvs = true →
      p (mapValues enforce_all_required_properties (requireNode kvs)) = true) :
    ∀ x, allObjNodes q x = true →
      allObjNodes p (enforce_all_required_properties x) = true := by
  intro x
  induction x using Json.inductionOn with
  | hnull => intro _; rfl
  | hbool b => intro _; rfl
  | hnum n => intro _; rfl
  | hstr s => intro _; rfl
  | harr xs ih =>
      intro h
      simp only [allObjNodes_arr, List.all_eq_true] at h
      simp only [require_arr, allObjNodes_arr, List.all_map, List.all_eq_true,
        Function.comp]
      exact fun x hx => ih x hx (h x hx)
  | hobj kvs ih =>
      intro h
      simp only [allObjNodes_obj, Bool.and_eq_true, List.all_eq_true] at h
      rw [enforce_all_required_properties_obj]
      simp only [allObjNodes_obj, Bool.and_eq_true]
      refine ⟨hnode kvs h.1, ?_⟩
      rw [all_mapValues]
      simp only [List.all_eq_true]
      intro kv hkv
      rcases mem_requireNode kvs kv hkv with h2 | ⟨pk, r, hp, hr, h2⟩
      · exact ih kv h2 (h.2 kv h2)
      · rw [h2]
        simp only [require_arr, allObjNodes_arr, List.all_map, List.all_eq_true,
          Function.comp]
        intro y hy
        rcases mem_pushMissing y (keysOf pk) r hy with h3 | ⟨k, _, h3⟩
        · have hmem := getKey_mem "required" kvs _ hr
          have := ih _ hmem (h.2 _ hmem)
          simp only [require_arr, allObjNodes_arr, List.all_map, List.all_eq_true,
            Function.comp] at this
          exact this y h3
        · rw [h3]
          rfl

theorem require_id_of (p : List (String × Json) → Bool)
    (hnode : ∀ kvs, p kvs = true → requireNode kvs = kvs) :
    ∀ x, allObjNodes p x = true → enforce_all_required_properties x = x := by
  intro x
  induction x using Json.inductionOn with
  | hnull => intro _; rfl
  | hbool b => intro _; rfl
  | hnum n => intro _; rfl
  | hstr s => intro _; rfl
  | harr xs ih =>
      intro h
      simp only [allObjNodes_arr, List.all_eq_true] at h
      rw [require_arr, List.map_congr_left (fun x hx => ih x hx (h x hx)), List.map_id']
  | hobj kvs ih =>
      intro h
      simp only [allObjNodes_obj, Bool.and_eq_true, List.all_eq_true] at h
      rw [enforce_all_required_properties_obj, hnode kvs h.1,
        mapValues_id_of _ kvs (fun kv hkv => ih kv hkv (h.2 kv hkv))]

/-! ## Node-level facts for each invariant -/

theorem moveKey_id_of_getKey_none (src dst : String) (kvs : List (String × Json))
    (h : getKey src kvs = none) : moveKey src dst kvs = kvs := by
  unfold moveKey
  rw [h]

theorem getKey_requireNode_other (k : String) (h : k ≠ "required")
    (kvs : List (String × Json)) : getKey k (requireNode kvs) = getKey k kvs := by
  by_cases hb : ∃ (pk : List (String × Json)) (r : List Json),
      getKey "properties" kvs = some (.obj pk) ∧ getKey "required" kvs = some (.arr r)
  · rcases hb with ⟨pk, r, hp, hr⟩
    rw [requireNode_of_both kvs pk r hp hr, getKey_insertKey_ne _ _ _ h]
  · rw [requireNode_id kvs (fun pk l hp hr => hb ⟨pk, l, hp, hr⟩)]

theorem hasKey_requireNode_other (k : String) (h : k ≠ "required")
    (kvs : List (String × Json)) : hasKey k (requireNode kvs) = hasKey k kvs := by
  by_cases hb : ∃ (pk : List (String × Json)) (r : List Json),
      getKey "properties" kvs = some (.obj pk) ∧ getKey "required" kvs = some (.arr r)
  · rcases hb with ⟨pk, r, hp, hr⟩
    rw [requireNode_of_both kvs pk r hp hr, hasKey_insertKey_ne _ _ _ h]
  · rw [requireNode_id kvs (fun pk l hp hr => hb ⟨pk, l, hp, hr⟩)]

theorem require_eq_obj_shape (v : Json) (o : List (String × Json))
    (h : enforce_all_required_properties v = .obj o) :
    ∃ kvs, v = .obj kvs := by
  cases v with
  | obj kvs => exact ⟨kvs, rfl⟩
  | null => exact absurd h (by simp)
  | bool b => exact absurd h (by simp)
  | num n => exact absurd h (by simp)
  | str s => exact absurd h (by simp)
  | arr xs => exact absurd h (by simp)

theorem require_eq_arr_shape (v : Json) (o : List Json)
    (h : enforce_all_required_properties v = .arr o) :
    ∃ xs, v = .arr xs := by
  cases v with
  | arr xs => exact ⟨xs, rfl⟩
  | null => exact absurd h (by simp)
  | bool b => exact absurd h (by simp)
  | num n => exact absurd h (by simp)
  | str s => exact absurd h (by simp)
  | obj kvs =>
      rw [enforce_all_required_properties_obj] at h
      exact absurd h (by simp)

/-- Node fact: the strip rewrite leaves no stripped key behind. -/
theorem noStripB_strip_node (kvs : List (String × Json)) :
    noStripB (mapValues remove_property_format_value_from_json
      (kvs.filter keepEntry)) = true := by
  simp only [noStripB, keysOf_mapValues, List.all_eq_true]
  intro k hk
  rcases List.mem_map.mp hk with ⟨kv, hkv, he⟩
  have := (List.mem_filter.mp hkv).2
  rw [← he]
  simpa [keepEntry] using this

/-- Node fact: the union rewrite introduces only the key `anyOf`, which is
not a stripped keyword. -/
theorem noStripB_anyOf_node (kvs : List (String × Json)) (h : noStripB kvs = true) :
    noStripB (mapValues replace_one_of_by_any_of
      (moveKey "allOf" "anyOf" (moveKey "oneOf" "anyOf" kvs))) = true := by
  simp only [noStripB, keysOf_mapValues, List.all_eq_true] at h ⊢
  intro k hk
  rcases mem_keysOf_moveKey k _ _ _ hk with h2 | h2
  · rcases mem_keysOf_moveKey k _ _ _ h2 with h3 | h3
    · exact h k h3
    · rw [h3]
      decide
  · rw [h2]
    decide

/-- Node fact: the close rewrite introduces only `additionalProperties`,
which is not a stripped keyword. -/
theorem noStripB_close_node (kvs : List (String × Json)) (h : noStripB kvs = true) :
    noStripB (mapValues set_additional_properties_to_false
      (if getKey "type" kvs = some (.str "object")
       then insertKey "additionalProperties" (.bool false) kvs
       else kvs)) = true := by
  simp only [noStripB, keysOf_mapValues, List.all_eq_true] at h ⊢
  intro k hk
  by_cases hc : getKey "type" kvs = some (Json.str "object")
  · rw [if_pos hc] at hk
    rcases mem_keysOf_insertKey k _ _ kvs hk with h2 | h2
    · exact h k h2
    · rw [h2]
      decide
  · rw [if_neg hc] at hk
    exact h k hk

/-- Node fact: the require rewrite keeps the key list of the node. -/
theorem noStripB_require_node (kvs : List (String × Json)) (h : noStripB kvs = true) :
    noStripB (mapValues enforce_all_required_properties (requireNode kvs)) = true := by
  simp only [noStripB, keysOf_mapValues, keysOf_requireNode]
  exact h

/-- Node fact: after the union rewrite the node has neither `oneOf` nor
`allOf`. -/
theorem noUnionB_anyOf_node (kvs : List (String × Json)) :
    noUnionB (mapValues replace_one_of_by_any_of
      (moveKey "allOf" "anyOf" (moveKey "oneOf" "anyOf" kvs))) = true := by
  simp only [noUnionB, hasKey_mapValues, Bool.not_eq_eq_eq_not, Bool.not_true,
    Bool.or_eq_false_iff]
  constructor
  · rw [hasKey_moveKey_other "allOf" "anyOf" "oneOf" (by decide) (by decide),
      hasKey_moveKey_src "oneOf" "anyOf" (by decide)]
  · rw [hasKey_moveKey_src "allOf" "anyOf" (by decide)]

/-- Node fact: the close rewrite does not touch `oneOf` or `allOf`. -/
theorem noUnionB_close_node (kvs : List (String × Json)) (h : noUnionB kvs = true) :
    noUnionB (mapValues set_additional_properties_to_false
      (if getKey "type" kvs = some (.str "object")
       then insertKey "additionalProperties" (.bool false) kvs
       else kvs)) = true := by
  simp only [noUnionB, hasKey_mapValues] at h ⊢
  by_cases hc : getKey "type" kvs = some (Json.str "object")
  · rw [if_pos hc, hasKey_insertKey_ne _ _ _ (by decide),
      hasKey_insertKey_ne _ _ _ (by decide)]
    exact h
  · rw [if_neg hc]
    exact h

/-- Node fact: the require rewrite does not touch `oneOf` or `allOf`. -/
theorem noUnionB_require_node (kvs : List (String × Json)) (h : noUnionB kvs = true) :
    noUnionB (mapValues enforce_all_required_properties (requireNode kvs)) = true := by
  simp only [noUnionB, hasKey_mapValues] at h ⊢
  rw [hasKey_requireNode_other _ (by decide), hasKey_requireNode_other _ (by decide)]
  exact h

/-- Node fact: after the close rewrite, a `type == "object"` node maps
`additionalProperties` to `false`. -/
theorem closedB_close_node (kvs : List (String × Json)) :
    closedB (mapValues set_additional_properties_to_false
      (if getKey "type" kvs = some (.str "object")
       then insertKey "additionalProperties" (.bool false) kvs
       else kvs)) = true := by
  simp only [closedB, decide_eq_true_eq]
  intro hty
  by_cases hc : getKey "type" kvs = some (Json.str "object")
  · rw [if_pos hc, getKey_mapValues, getKey_insertKey_self]
    rfl
  · rw [if_neg hc] at hty
    rw [getKey_mapValues] at hty
    rcases Option.map_eq_some'.mp hty with ⟨v, hv, he⟩
    exact absurd (hv.trans (congrArg some ((close_eq_str_iff v "object").mp he))) hc

/-- Node fact: the require rewrite keeps `type` and `additionalProperties`
untouched. -/
theorem closedB_require_node (kvs : List (String × Json)) (h : closedB kvs = true) :
    closedB (mapValues enforce_all_required_properties (requireNode kvs)) = true := by
  simp only [closedB, decide_eq_true_eq] at h ⊢
  intro hty
  rw [getKey_mapValues, getKey_requireNode_other _ (by decide)] at hty
  rcases Option.map_eq_some'.mp hty with ⟨v, hv, he⟩
  have hv2 : v = Json.str "object" := (require_eq_str_iff v "object").mp he
  have := h (hv.trans (congrArg some hv2))
  rw [getKey_mapValues, getKey_requireNode_other _ (by decide), this]
  rfl

/-- Node fact: after the require rewrite, every property name of the node
occurs in its `required` array. -/
theorem reqOkB_require_node (kvs : List (String × Json)) :
    reqOkB (mapValues enforce_all_required_properties (requireNode kvs)) = true := by
  by_cases hb : ∃ (pk : List (String × Json)) (r : List Json),
      getKey "properties" kvs = some (.obj pk) ∧ getKey "required" kvs = some (.arr r)
  · rcases hb with ⟨pk, r, hp, hr⟩
    rw [requireNode_of_both kvs pk r hp hr]
    have hp2 : getKey "properties"
        (mapValues enforce_all_required_properties
          (insertKey "required" (.arr (pushMissing r (keysOf pk))) kvs)) =
        some (.obj (requireNode (requireEntries pk))) := by
      rw [getKey_mapValues, getKey_insertKey_ne _ _ _ (by decide), hp]
      simp [enforce_all_required_properties]
    have hr2 : getKey "required"
        (mapValues enforce_all_required_properties
          (insertKey "required" (.arr (pushMissing r (keysOf pk))) kvs)) =
        some (.arr ((pushMissing r (keysOf pk)).map enforce_all_required_properties)) := by
      rw [getKey_mapValues, getKey_insertKey_self]
      simp
    rw [reqOkB_of_both _ _ _ hp2 hr2]
    simp only [List.all_eq_true, decide_eq_true_eq]
    intro k hk
    rw [keysOf_requireNode, requireEntries_eq_mapValues, keysOf_mapValues] at hk
    exact List.mem_map.mpr ⟨Json.str k, str_mem_pushMissing (keysOf pk) r k hk,
      require_str k⟩
  · rw [requireNode_id kvs (fun pk l hp hr => hb ⟨pk, l, hp, hr⟩)]
    apply reqOkB_of_not_both
    intro pk l hp hr
    rw [getKey_mapValues] at hp hr
    rcases Option.map_eq_some'.mp hp with ⟨v, hv, he⟩
    rcases Option.map_eq_some'.mp hr with ⟨w, hw, he2⟩
    rcases require_eq_obj_shape v pk he with ⟨pk0, hv0⟩
    rcases require_eq_arr_shape w l he2 with ⟨l0, hw0⟩
    exact hb ⟨pk0, l0, hv0 ▸ hv, hw0 ▸ hw⟩

/-! ### Node-level identity facts -/

/-- A node with no stripped keys is unchanged by the strip rewrite. -/
theorem strip_node_id (kvs : List (String × Json)) (h : noStripB kvs = true) :
    kvs.filter keepEntry = kvs := by
  simp only [noStripB, List.all_eq_true] at h
  apply List.filter_eq_self.mpr
  intro kv hkv
  have := h kv.1 (List.mem_map.mpr ⟨kv, hkv, rfl⟩)
  simpa [keepEntry] using this

/-- A node with neither `oneOf` nor `allOf` is unchanged by the union
rewrite. -/
theorem anyOf_node_id (kvs : List (String × Json)) (h : noUnionB kvs = true) :
    moveKey "allOf" "anyOf" (moveKey "oneOf" "anyOf" kvs) = kvs := by
  simp only [noUnionB, Bool.not_eq_eq_eq_not, Bool.not_true, Bool.or_eq_false_iff] at h
  rw [moveKey_id_of_getKey_none _ _ _ (getKey_eq_none_of_hasKey_false _ _ h.1),
    moveKey_id_of_getKey_none _ _ _ (getKey_eq_none_of_hasKey_false _ _ h.2)]

/-- A node already satisfying the closed-object invariant is unchanged by
the close rewrite. -/
theorem close_node_id (kvs : List (String × Json)) (h : closedB kvs = true) :
    (if getKey "type" kvs = some (.str "object")
     then insertKey "additionalProperties" (.bool false) kvs
     else kvs) = kvs := by
  simp only [closedB, decide_eq_true_eq] at h
  by_cases hc : getKey "type" kvs = some (Json.str "object")
  · rw [if_pos hc]
    exact insertKey_self_of_getKey _ _ kvs (h hc)
  · rw [if_neg hc]

/-- A node already satisfying the total-required invariant is unchanged by
the require rewrite. -/
theorem require_node_id (kvs : List (String × Json)) (h : reqOkB kvs = true) :
    requireNode kvs = kvs := by
  by_cases hb : ∃ (pk : List (String × Json)) (r : List Json),
      getKey "properties" kvs = some (.obj pk) ∧ getKey "required" kvs = some (.arr r)
  · rcases hb with ⟨pk, r, hp, hr⟩
    rw [reqOkB_of_both _ _ _ hp hr] at h
    simp only [List.all_eq_true, decide_eq_true_eq] at h
    rw [requireNode_of_both kvs pk r hp hr, pushMissing_eq_self _ _ h]
    exact insertKey_self_of_getKey _ _ kvs hr
  · exact requireNode_id kvs (fun pk l hp hr => hb ⟨pk, l, hp, hr⟩)

/-! ## Pipeline invariants -/

/-- After the full pipeline, no object node carries a stripped keyword. -/
theorem noStrip_pipeline (x : Json) :
    allObjNodes noStripB (enforce_openai_subset x) = true := by
  unfold enforce_openai_subset
  apply allObjNodes_require_of noStripB noStripB
    (fun kvs h => noStripB_require_node kvs h)
  apply allObjNodes_close_of noStripB noStripB
    (fun kvs h => noStripB_close_node kvs h)
  apply allObjNodes_anyOf_of noStripB noStripB
    (fun kvs h => noStripB_anyOf_node kvs h)
  apply allObjNodes_strip_of noStripB (fun _ => true)
    (fun kvs _ => noStripB_strip_node kvs)
  exact allObjNodes_trivial x

/-- After the full pipeline, no object node carries `oneOf` or `allOf`. -/
theorem noUnion_pipeline (x : Json) :
    allObjNodes noUnionB (enforce_openai_subset x) = true := by
  unfold enforce_openai_subset
  apply allObjNodes_require_of noUnionB noUnionB
    (fun kvs h => noUnionB_require_node kvs h)
  apply allObjNodes_close_of noUnionB noUnionB
    (fun kvs h => noUnionB_close_node kvs h)
  apply allObjNodes_anyOf_of noUnionB (fun _ => true)
    (fun kvs _ => noUnionB_anyOf_node kvs)
  exact allObjNodes_trivial _

/-- After the full pipeline, every `type == "object"` node maps
`additionalProperties` to `false`. -/
theorem closed_pipeline (x : Json) :
    allObjNodes closedB (enforce_openai_subset x) = true := by
  unfold enforce_openai_subset
  apply allObjNodes_require_of closedB closedB
    (fun kvs h => closedB_require_node kvs h)
  apply allObjNodes_close_of closedB (fun _ => true)
    (fun kvs _ => closedB_close_node kvs)
  exact allObjNodes_trivial _

/-- After the full pipeline, every node with object-valued `properties` and
array-valued `required` lists all its property names in `required`. -/
theorem reqOk_pipeline (x : Json) :
    allObjNodes reqOkB (enforce_openai_subset x) = true := by
  unfold enforce_openai_subset
  apply allObjNodes_require_of reqOkB (fun _ => true)
    (fun kvs _ => reqOkB_require_node kvs)
  exact allObjNodes_trivial _

/-- The strip pass fixes a fully normalized document. -/
theorem strip_fix_pipeline (x : Json) :
    remove_property_format_value_from_json (enforce_openai_subset x) =
      enforce_openai_subset x :=
  strip_id_of noStripB strip_node_id _ (noStrip_pipeline x)

/-- The union pass fixes a fully normalized document. -/
theorem anyOf_fix_pipeline (x : Json) :
    replace_one_of_by_any_of (enforce_openai_subset x) = enforce_openai_subset x :=
  anyOf_id_of noUnionB anyOf_node_id _ (noUnion_pipeline x)

/-- The close pass fixes a fully normalized document. -/
theorem close_fix_pipeline (x : Json) :
    set_additional_properties_to_false (enforce_openai_subset x) =
      enforce_openai_subset x :=
  close_id_of closedB close_node_id _ (closed_pipeline x)

/-- The require pass fixes a fully normalized document. -/
theorem require_fix_pipeline (x : Json) :
    enforce_all_required_properties (enforce_openai_subset x) =
      enforce_openai_subset x :=
  require_id_of reqOkB require_node_id _ (reqOk_pipeline x)

/-- The full pipeline is idempotent. -/
theorem enforce_openai_subset_idem (x : Json) :
    enforce_openai_subset (enforce_openai_subset x) = enforce_openai_subset x := by
  conv in enforce_openai_subset (enforce_openai_subset x) =>
    rw [enforce_openai_subset, strip_fix_pipeline, anyOf_fix_pipeline,
      close_fix_pipeline, require_fix_pipeline]

/-! ## Commutation of the strip and close passes -/

theorem mapValues_mapValues (f g : Json → Json) :
    ∀ l : List (String × Json), mapValues f (mapValues g l) =
      l.map (fun kv => (kv.1, f (g kv.2)))
  | [] => rfl
  | kv :: rest => by simp [mapValues_mapValues f g rest]

theorem mapValues_congr (f g : Json → Json) :
    ∀ l : List (String × Json), (∀ kv ∈ l, f kv.2 = g kv.2) →
      mapValues f l = mapValues g l
  | [], _ => rfl
  | kv :: rest, h => by
      rw [mapValues_cons, mapValues_cons, h kv (by simp),
        mapValues_congr f g rest (fun kv' h' => h kv' (by simp [h']))]

theorem filter_keep_mapValues (f : Json → Json) :
    ∀ l : List (String × Json),
      (mapValues f l).filter keepEntry =
        mapValues f (l.filter keepEntry)
  | [] => rfl
  | kv :: rest => by
      by_cases h : kv.1 ∈ strippedKeys <;>
        simp [keepEntry, List.filter_cons, h, filter_keep_mapValues f rest]

theorem getKey_filter_keep (k : String) (hk : ¬ k ∈ strippedKeys) :
    ∀ l : List (String × Json),
      getKey k (l.filter keepEntry) = getKey k l
  | [] => rfl
  | (k', v) :: rest => by
      by_cases h2 : k' = k
      · subst h2
        simp [keepEntry, List.filter_cons, hk]
      · by_cases h3 : k' ∈ strippedKeys <;>
          simp [keepEntry, List.filter_cons, h2, h3, getKey_filter_keep k hk rest]

theorem filter_keep_insertKey (k : String) (v : Json) (hk : ¬ k ∈ strippedKeys) :
    ∀ l : List (String × Json),
      (insertKey k v l).filter keepEntry =
        insertKey k v (l.filter keepEntry)
  | [] => by simp [keepEntry, List.filter_cons, hk]
  | (k', v') :: rest => by
      by_cases h2 : k' = k
      · subst h2
        simp [keepEntry, List.filter_cons, hk]
      · by_cases h3 : k' ∈ strippedKeys
        · simp [keepEntry, List.filter_cons, h2, h3, filter_keep_insertKey k v hk rest]
        · simp [keepEntry, List.filter_cons, h2, h3, filter_keep_insertKey k v hk rest]

/-- The constraint stripper and the closed-object enforcer commute: neither
reads nor writes a key the other touches (`type` and `additionalProperties`
are not stripped keywords). -/
theorem strip_close_comm (x : Json) :
    remove_property_format_value_from_json (set_additional_properties_to_false x) =
      set_additional_properties_to_false (remove_property_format_value_from_json x) := by
  induction x using Json.inductionOn with
  | hnull => rfl
  | hbool b => rfl
  | hnum n => rfl
  | hstr s => rfl
  | harr xs ih =>
      simp only [strip_arr, close_arr, List.map_map]
      congr 1
      exact List.map_congr_left (fun x hx => ih x hx)
  | hobj kvs ih =>
      rw [set_additional_properties_to_false_obj,
        remove_property_format_value_from_json_obj,
        remove_property_format_value_from_json_obj,
        set_additional_properties_to_false_obj]
      congr 1
      rw [getKey_mapValues, getKey_filter_keep "type" (by decide)]
      have hcond : (getKey "type" kvs).map remove_property_format_value_from_json =
          some (Json.str "object") ↔ getKey "type" kvs = some (Json.str "object") := by
        constructor
        · intro h
          rcases Option.map_eq_some'.mp h with ⟨v, hv, he⟩
          rw [hv, (strip_eq_str_iff v "object").mp he]
        · intro h
          rw [h]
          rfl
      by_cases hc : getKey "type" kvs = some (Json.str "object")
      · rw [if_pos hc, if_pos (hcond.mpr hc), filter_keep_mapValues,
          filter_keep_insertKey _ _ (by decide)]
        simp only [mapValues_insertKey, strip_bool, close_bool,
          mapValues_mapValues]
        congr 1
        apply List.map_congr_left
        intro kv hkv
        rw [ih kv (List.mem_of_mem_filter hkv)]
      · rw [if_neg hc, if_neg (fun h => hc (hcond.mp h)), filter_keep_mapValues]
        simp only [mapValues_mapValues]
        apply List.map_congr_left
        intro kv hkv
        rw [ih kv (List.mem_of_mem_filter hkv)]

/-! ## Remaining helper facts for the claims -/

/-- The keys surviving the strip rewrite are exactly the non-stripped keys,
in order: no other key is removed. -/
theorem keysOf_stripEntries :
    ∀ kvs : List (String × Json),
      keysOf (stripEntries kvs) = (keysOf kvs).filter (fun k => !(strippedKeys.contains k))
  | [] => rfl
  | (k, v) :: rest => by
      rw [stripEntries]
      by_cases h : k ∈ strippedKeys <;>
        simp [h, List.filter_cons, keysOf_stripEntries rest]

/-- Dropping a stripped-key entry anywhere in a node does not change the
strip result: the entry's value is never consulted. -/
theorem stripEntries_drop (k : String) (v : Json) (hk : strippedKeys.contains k = true) :
    ∀ pre post : List (String × Json),
      stripEntries (pre ++ (k, v) :: post) = stripEntries (pre ++ post)
  | [], post => by
      rw [List.nil_append, List.nil_append, stripEntries, if_pos hk]
  | kv :: pre, post => by
      rw [List.cons_append, List.cons_append]
      rcases kv with ⟨k', v'⟩
      rw [stripEntries, stripEntries]
      by_cases h : strippedKeys.contains k'
      · rw [if_pos h, if_pos h, stripEntries_drop k v hk pre post]
      · simp only [h, if_false, stripEntries_drop k v hk pre post]

/-- The full pipeline fixes scalars. -/
theorem enforce_openai_subset_scalar :
    enforce_openai_subset .null = .null ∧
    (∀ b, enforce_openai_subset (.bool b) = .bool b) ∧
    (∀ n, enforce_openai_subset (.num n) = .num n) ∧
    (∀ s, enforce_openai_subset (.str s) = .str s) :=
  ⟨rfl, fun _ => rfl, fun _ => rfl, fun _ => rfl⟩

/-- The full pipeline maps an array elementwise: same length, same order. -/
theorem enforce_openai_subset_arr (xs : List Json) :
    enforce_openai_subset (.arr xs) = .arr (xs.map enforce_openai_subset) := by
  simp only [enforce_openai_subset, strip_arr, anyOf_arr, close_arr, require_arr,
    List.map_map]
  rfl

/-- The full pipeline maps an object node to an object node. -/
theorem enforce_openai_subset_obj (kvs : List (String × Json)) :
    ∃ e, enforce_openai_subset (.obj kvs) = .obj e := by
  rw [enforce_openai_subset, remove_property_format_value_from_json,
    replace_one_of_by_any_of, set_additional_properties_to_false_obj,
    enforce_all_required_properties_obj]
  exact ⟨_, rfl⟩

theorem moveKey_eq_of_getKey_some (src dst : String) (kvs : List (String × Json))
    (v : Json) (h : getKey src kvs = some v) :
    moveKey src dst kvs = insertKey dst v (removeKey src kvs) := by
  unfold moveKey
  rw [h]

/-- With both `oneOf` and `allOf` on a node, the second move wins: the
final `anyOf` is the `allOf` value. -/
theorem getKey_anyOf_double_move_both (kvs : List (String × Json)) (a b : Json)
    (ha : getKey "oneOf" kvs = some a) (hb : getKey "allOf" kvs = some b) :
    getKey "anyOf" (moveKey "allOf" "anyOf" (moveKey "oneOf" "anyOf" kvs)) = some b := by
  have hb2 : getKey "allOf" (moveKey "oneOf" "anyOf" kvs) = some b := by
    rw [getKey_moveKey_other "oneOf" "anyOf" "allOf" (by decide) (by decide), hb]
  rw [moveKey_eq_of_getKey_some _ _ _ _ hb2, getKey_insertKey_self]

/-- With `oneOf` but no `allOf`, the final `anyOf` is the `oneOf` value
(overwriting any previous `anyOf`). -/
theorem getKey_anyOf_double_move_one (kvs : List (String × Json)) (a : Json)
    (ha : getKey "oneOf" kvs = some a) (hb : getKey "allOf" kvs = none) :
    getKey "anyOf" (moveKey "allOf" "anyOf" (moveKey "oneOf" "anyOf" kvs)) = some a := by
  have hb2 : getKey "allOf" (moveKey "oneOf" "anyOf" kvs) = none := by
    rw [getKey_moveKey_other "oneOf" "anyOf" "allOf" (by decide) (by decide), hb]
  rw [moveKey_id_of_getKey_none _ _ _ hb2, moveKey_eq_of_getKey_some _ _ _ _ ha,
    getKey_insertKey_self]

/-- Whenever `allOf` is present — with or without `oneOf` — the final
`anyOf` is the `allOf` value (overwriting any previous `anyOf`), since the
`allOf` move runs second. -/
theorem getKey_anyOf_double_move_all (kvs : List (String × Json)) (b : Json)
    (hb : getKey "allOf" kvs = some b) :
    getKey "anyOf" (moveKey "allOf" "anyOf" (moveKey "oneOf" "anyOf" kvs)) = some b := by
  cases ha : getKey "oneOf" kvs with
  | some a => exact getKey_anyOf_double_move_both kvs a b ha hb
  | none =>
      rw [moveKey_id_of_getKey_none _ _ _ ha, moveKey_eq_of_getKey_some _ _ _ _ hb,
        getKey_insertKey_self]

/-- After the two moves, the node carries neither `oneOf` nor `allOf`. -/
theorem hasKey_union_double_move (kvs : List (String × Json)) :
    hasKey "oneOf" (moveKey "allOf" "anyOf" (moveKey "oneOf" "anyOf" kvs)) = false ∧
    hasKey "allOf" (moveKey "allOf" "anyOf" (moveKey "oneOf" "anyOf" kvs)) = false := by
  constructor
  · rw [hasKey_moveKey_other "allOf" "anyOf" "oneOf" (by decide) (by decide),
      hasKey_moveKey_src "oneOf" "anyOf" (by decide)]
  · rw [hasKey_moveKey_src "allOf" "anyOf" (by decide)]

/-! ## The claims -/

/-- Claim C1: for every JSON schema document, applying the full four-pass
pipeline (strip constraints, normalize unions, close objects, enforce
required) twice yields exactly the same document as applying it once. -/
theorem claim_idempotence (D : Json) :
    enforce_openai_subset (enforce_openai_subset D) = enforce_openai_subset D :=
  enforce_openai_subset_idem D

/-- Claim C2 counterexample: the transformation does modify content stored
under `properties` (the nested `format` entry is stripped), and it does
change the length of an array (the `required` array grows from zero to one
entry), so the claim fails on this input. -/
theorem claim_structural_preservation_cex :
    enforce_openai_subset
      (.obj [("properties", .obj [("a", .obj [("format", .num 0)])]),
             ("required", .arr [])]) =
      .obj [("properties", .obj [("a", .obj [])]),
            ("required", .arr [.str "a"])] ∧
    (Json.arr [.str "a"]) ≠ .arr [] ∧
    (Json.obj []) ≠ .obj [("format", .num 0)] := by
  refine ⟨by decide, by decide, by decide⟩

/-- Claim C2 as amended: the transformation maps every scalar to itself,
maps every array node to an array of the same length with the elements
transformed in order, and maps every object node to an object node; the
lengths of `required` arrays and the content under `type` or `properties`
keys are still subject to the passes' own rewrites. -/
theorem claim_structural_preservation_amended :
    (enforce_openai_subset .null = .null) ∧
    (∀ b, enforce_openai_subset (.bool b) = .bool b) ∧
    (∀ n, enforce_openai_subset (.num n) = .num n) ∧
    (∀ s, enforce_openai_subset (.str s) = .str s) ∧
    (∀ xs, enforce_openai_subset (.arr xs) = .arr (xs.map enforce_openai_subset)) ∧
    (∀ kvs, ∃ e, enforce_openai_subset (.obj kvs) = .obj e) :=
  ⟨rfl, fun _ => rfl, fun _ => rfl, fun _ => rfl,
   fun xs => enforce_openai_subset_arr xs,
   fun kvs => enforce_openai_subset_obj kvs⟩

/-- Claim C3: after the full transformation, every object node with an
object-valued `properties` and an array-valued `required` lists every
property name in `required`; the pass rewrites such a node by appending the
missing names (a duplicate-free block of fresh names, after the pre-existing
entries, which are kept in order); a node whose `required` key is missing,
or not an array, is left unchanged at that level — no `required` array is
synthesized. -/
theorem claim_total_required :
    (∀ D, allObjNodes reqOkB (enforce_openai_subset D) = true) ∧
    (∀ (kvs pk : List (String × Json)) (l : List Json),
      getKey "properties" kvs = some (.obj pk) →
      getKey "required" kvs = some (.arr l) →
      requireNode kvs = insertKey "required" (.arr (pushMissing l (keysOf pk))) kvs) ∧
    (∀ (l : List Json) (ks : List String),
      ∃ t, pushMissing l ks = l ++ t ∧ t.Nodup ∧ (∀ x ∈ t, x ∉ l) ∧
        (∀ x ∈ t, ∃ k ∈ ks, x = Json.str k)) ∧
    (∀ kvs : List (String × Json), hasKey "required" kvs = false →
      enforce_all_required_properties (.obj kvs) =
        .obj (mapValues enforce_all_required_properties kvs)) ∧
    (∀ (kvs : List (String × Json)) (v : Json),
      getKey "required" kvs = some v → (∀ l, v ≠ .arr l) →
      enforce_all_required_properties (.obj kvs) =
        .obj (mapValues enforce_all_required_properties kvs)) := by
  refine ⟨reqOk_pipeline, requireNode_of_both,
    fun l ks => pushMissing_append_struct ks l, ?_, ?_⟩
  · intro kvs h
    rw [enforce_all_required_properties_obj, requireNode_id]
    intro pk l hp hr
    rw [getKey_eq_none_of_hasKey_false _ _ h] at hr
    exact absurd hr (by simp)
  · intro kvs v hv hnot
    rw [enforce_all_required_properties_obj, requireNode_id]
    intro pk l hp hr
    rw [hv] at hr
    exact absurd (Option.some.inj hr) (hnot l)

/-- Claim C3 witness: the hypothesis-bearing parts of `claim_total_required`
at concrete nodes — a node with both keys gets its `required` rewritten by
the push, a node with no `required`, and one with a non-array `required`,
are rewritten without a node-level change. -/
theorem claim_total_required_witness :
    requireNode [("properties", .obj [("b", .null)]), ("required", .arr [])] =
      insertKey "required"
        (.arr (pushMissing [] (keysOf [("b", Json.null)])))
        [("properties", .obj [("b", .null)]), ("required", .arr [])] ∧
    enforce_all_required_properties (.obj [("properties", .obj [("c", .null)])]) =
      .obj (mapValues enforce_all_required_properties
        [("properties", .obj [("c", .null)])]) ∧
    enforce_all_required_properties
        (.obj [("required", .num 3), ("properties", .obj [("a", .null)])]) =
      .obj (mapValues enforce_all_required_properties
        [("required", .num 3), ("properties", .obj [("a", .null)])]) :=
  ⟨claim_total_required.2.1 _ _ _ (by decide) (by decide),
   claim_total_required.2.2.2.1 _ (by decide),
   claim_total_required.2.2.2.2 _ (.num 3) (by decide) (fun l h => Json.noConfusion h)⟩

/-- Claim C4 counterexample: with input `{"oneOf": [{"type": "object"}]}`
(already constraint-free, so identical to its stripped form), the full
transformation stores under `anyOf` a value into which the closed-object
pass has inserted `additionalProperties: false`; the original `oneOf` value
is not reachable, with identical content, under `anyOf` of any node. -/
theorem claim_union_rewrite_cex :
    remove_property_format_value_from_json
        (.obj [("oneOf", .arr [.obj [("type", .str "object")]])]) =
      .obj [("oneOf", .arr [.obj [("type", .str "object")]])] ∧
    enforce_openai_subset (.obj [("oneOf", .arr [.obj [("type", .str "object")]])]) =
      .obj [("anyOf", .arr [.obj [("type", .str "object"),
        ("additionalProperties", .bool false)]])] ∧
    allObjNodes
        (fun kvs => decide
          (getKey "anyOf" kvs ≠ some (.arr [.obj [("type", .str "object")]])))
        (enforce_openai_subset
          (.obj [("oneOf", .arr [.obj [("type", .str "object")]])])) = true := by
  refine ⟨by decide, by decide, by decide⟩

/-- Claim C4 as amended: after the full transformation no object node
contains `oneOf` or `allOf`; the union pass rewrites each object node by
moving the `oneOf` value and then the `allOf` value verbatim under `anyOf`
(`moveKey` removes the source key and re-inserts the untouched value under
`anyOf`) before recursing, so the value is subsequently rewritten in place
by the recursion and the later passes rather than preserved verbatim. -/
theorem claim_union_rewrite_amended :
    (∀ D, allObjNodes noUnionB (enforce_openai_subset D) = true) ∧
    (∀ kvs, replace_one_of_by_any_of (.obj kvs) =
      .obj (mapValues replace_one_of_by_any_of
        (moveKey "allOf" "anyOf" (moveKey "oneOf" "anyOf" kvs)))) ∧
    (∀ kvs, hasKey "oneOf" (moveKey "allOf" "anyOf" (moveKey "oneOf" "anyOf" kvs)) = false ∧
      hasKey "allOf" (moveKey "allOf" "anyOf" (moveKey "oneOf" "anyOf" kvs)) = false) :=
  ⟨noUnion_pipeline, replace_one_of_by_any_of_obj, hasKey_union_double_move⟩

/-- Claim C5: after the full transformation no object node anywhere —
including nodes nested inside arrays — carries any of the nineteen stripped
keys, and the stripping pass removes exactly the stripped keys from a node:
the surviving keys are the non-stripped ones, in order. -/
theorem claim_constraint_removal :
    (∀ D, allObjNodes noStripB (enforce_openai_subset D) = true) ∧
    (∀ kvs, ∃ e, remove_property_format_value_from_json (.obj kvs) = .obj e ∧
      keysOf e = (keysOf kvs).filter (fun k => !(strippedKeys.contains k))) :=
  ⟨noStrip_pipeline, fun kvs => ⟨stripEntries kvs, rfl, keysOf_stripEntries kvs⟩⟩

/-- Claim C6: after the full transformation, every object node whose `type`
is the string `"object"` maps `additionalProperties` to `false`; the close
pass rewrites exactly such nodes by inserting (overwriting)
`additionalProperties: false` and leaves other nodes unchanged at that
level while still recursing into their values. -/
theorem claim_closed_objects :
    (∀ D, allObjNodes closedB (enforce_openai_subset D) = true) ∧
    (∀ kvs, set_additional_properties_to_false (.obj kvs) =
      .obj (mapValues set_additional_properties_to_false
        (if getKey "type" kvs = some (.str "object")
         then insertKey "additionalProperties" (.bool false) kvs
         else kvs))) :=
  ⟨closed_pipeline, set_additional_properties_to_false_obj⟩

/-- Claim C7 counterexample: running the passes in the order required,
close, union, strip differs from the implementation's fixed order
strip, union, close, required on `{"properties": {"format": {}},
"required": []}` — the stripper deletes the property named `format` from
the `properties` map, so enforcing `required` before stripping records
`"format"` while the fixed order does not. -/
theorem claim_pass_order_cex :
    remove_property_format_value_from_json
        (replace_one_of_by_any_of
          (set_additional_properties_to_false
            (enforce_all_required_properties
              (.obj [("properties", .obj [("format", .obj [])]),
                     ("required", .arr [])])))) ≠
      enforce_openai_subset
        (.obj [("properties", .obj [("format", .obj [])]),
               ("required", .arr [])]) := by
  decide

/-- Claim C7 as amended: the four passes do not commute in all orders —
moving the total-required enforcer before the constraint stripper can leave
stripped property names in `required` — but passes touching disjoint keys
do: the constraint stripper and the closed-object enforcer commute on every
document. -/
theorem claim_pass_order_amended (D : Json) :
    remove_property_format_value_from_json (set_additional_properties_to_false D) =
      set_additional_properties_to_false (remove_property_format_value_from_json D) :=
  strip_close_comm D

/-- Claim C8: the constructor propagates an upstream conversion error
unchanged and otherwise always succeeds with the transformed document (so
it fails exactly when the conversion does); and the passes recover locally
from unexpected shapes — a node whose `required` is present but not an
array is rewritten without any node-level change, not an error. -/
theorem claim_error_taxonomy :
    (∀ e, schemaNew (.error e) = .error e) ∧
    (∀ v, schemaNew (.ok v) = .ok (enforce_openai_subset v)) ∧
    (∀ (kvs : List (String × Json)) (v : Json),
      getKey "required" kvs = some v → (∀ l, v ≠ .arr l) →
      enforce_all_required_properties (.obj kvs) =
        .obj (mapValues enforce_all_required_properties kvs)) := by
  refine ⟨fun e => rfl, fun v => rfl, ?_⟩
  intro kvs v hv hnot
  rw [enforce_all_required_properties_obj, requireNode_id]
  intro pk l hp hr
  rw [hv] at hr
  exact absurd (Option.some.inj hr) (hnot l)

/-- Claim C8 witness: `claim_error_taxonomy` at concrete inputs — a
propagated error, a successful conversion, and a node whose `required` is
the string `"x"`. -/
theorem claim_error_taxonomy_witness :
    schemaNew (.error "serialization failure") = .error "serialization failure" ∧
    schemaNew (.ok (.obj [])) = .ok (enforce_openai_subset (.obj [])) ∧
    enforce_all_required_properties (.obj [("required", .str "x")]) =
      .obj (mapValues enforce_all_required_properties [("required", .str "x")]) :=
  ⟨claim_error_taxonomy.1 _, claim_error_taxonomy.2.1 _,
   claim_error_taxonomy.2.2 _ (.str "x") (by decide) (fun l h => Json.noConfusion h)⟩

/-- Claim C9: the union normalizer's node rewrite processes `oneOf` first
and `allOf` second; with both present the node's final `anyOf` is the
former `allOf` value and the `oneOf` value is discarded (neither source key
survives); with only `oneOf` the final `anyOf` is the `oneOf` value; and
whenever `allOf` is present — with or without `oneOf` — the final `anyOf`
is the `allOf` value.  All conclusions hold with no assumption on a
pre-existing `anyOf`, so any `anyOf` value already on the node is
overwritten whenever the node has `oneOf` or `allOf`. -/
theorem claim_union_tiebreak (kvs : List (String × Json)) (a b : Json) :
    (replace_one_of_by_any_of (.obj kvs) =
      .obj (mapValues replace_one_of_by_any_of
        (moveKey "allOf" "anyOf" (moveKey "oneOf" "anyOf" kvs)))) ∧
    (getKey "oneOf" kvs = some a → getKey "allOf" kvs = some b →
      getKey "anyOf" (moveKey "allOf" "anyOf" (moveKey "oneOf" "anyOf" kvs)) = some b ∧
      hasKey "oneOf" (moveKey "allOf" "anyOf" (moveKey "oneOf" "anyOf" kvs)) = false ∧
      hasKey "allOf" (moveKey "allOf" "anyOf" (moveKey "oneOf" "anyOf" kvs)) = false) ∧
    (getKey "oneOf" kvs = some a → getKey "allOf" kvs = none →
      getKey "anyOf" (moveKey "allOf" "anyOf" (moveKey "oneOf" "anyOf" kvs)) = some a) ∧
    (getKey "allOf" kvs = some b →
      getKey "anyOf" (moveKey "allOf" "anyOf" (moveKey "oneOf" "anyOf" kvs)) = some b) :=
  ⟨replace_one_of_by_any_of_obj kvs,
   fun ha hb => ⟨getKey_anyOf_double_move_both kvs a b ha hb,
     (hasKey_union_double_move kvs).1, (hasKey_union_double_move kvs).2⟩,
   fun ha hb => getKey_anyOf_double_move_one kvs a ha hb,
   fun hb => getKey_anyOf_double_move_all kvs b hb⟩

/-- Claim C9 witness: `claim_union_tiebreak` on the node
`{"anyOf": 0, "oneOf": 1, "allOf": 2}` (the `allOf` value 2 wins and
overwrites the pre-existing `anyOf`), on `{"anyOf": 0, "oneOf": 1}`
(the `oneOf` value 1 overwrites the pre-existing `anyOf`), and on
`{"anyOf": 0, "allOf": 2}` (the `allOf` value 2 overwrites the
pre-existing `anyOf` also without any `oneOf`). -/
theorem claim_union_tiebreak_witness :
    (getKey "anyOf" (moveKey "allOf" "anyOf" (moveKey "oneOf" "anyOf"
        [("anyOf", .num 0), ("oneOf", .num 1), ("allOf", .num 2)])) = some (.num 2) ∧
      hasKey "oneOf" (moveKey "allOf" "anyOf" (moveKey "oneOf" "anyOf"
        [("anyOf", .num 0), ("oneOf", .num 1), ("allOf", .num 2)])) = false ∧
      hasKey "allOf" (moveKey "allOf" "anyOf" (moveKey "oneOf" "anyOf"
        [("anyOf", .num 0), ("oneOf", .num 1), ("allOf", .num 2)])) = false) ∧
    getKey "anyOf" (moveKey "allOf" "anyOf" (moveKey "oneOf" "anyOf"
      [("anyOf", .num 0), ("oneOf", .num 1)])) = some (.num 1) ∧
    getKey "anyOf" (moveKey "allOf" "anyOf" (moveKey "oneOf" "anyOf"
      [("anyOf", .num 0), ("allOf", .num 2)])) = some (.num 2) :=
  ⟨(claim_union_tiebreak [("anyOf", .num 0), ("oneOf", .num 1), ("allOf", .num 2)]
      (.num 1) (.num 2)).2.1 (by decide) (by decide),
   (claim_union_tiebreak [("anyOf", .num 0), ("oneOf", .num 1)]
      (.num 1) (.num 2)).2.2.1 (by decide) (by decide),
   (claim_union_tiebreak [("anyOf", .num 0), ("allOf", .num 2)]
      (.num 1) (.num 2)).2.2.2 (by decide)⟩

/-- Claim C10: a stripped-key entry is removed from the node before the
pass recurses, so the subschema stored under it is discarded wholesale:
the strip result — and the full pipeline's result — is the same as if the
entry (with any value, however deeply structured) had not been there at
all. -/
theorem claim_stripped_subschema_discarded (k : String) (v : Json)
    (pre post : List (String × Json)) (hk : strippedKeys.contains k = true) :
    remove_property_format_value_from_json (.obj (pre ++ (k, v) :: post)) =
      remove_property_format_value_from_json (.obj (pre ++ post)) ∧
    enforce_openai_subset (.obj (pre ++ (k, v) :: post)) =
      enforce_openai_subset (.obj (pre ++ post)) := by
  have h1 : remove_property_format_value_from_json (.obj (pre ++ (k, v) :: post)) =
      remove_property_format_value_from_json (.obj (pre ++ post)) := by
    rw [remove_property_format_value_from_json, remove_property_format_value_from_json,
      stripEntries_drop k v hk pre post]
  exact ⟨h1, by rw [enforce_openai_subset, enforce_openai_subset, h1]⟩

/-- Claim C10 witness: `claim_stripped_subschema_discarded` at the key
`contains` holding a subschema with nested `oneOf` and `properties`,
between two retained entries. -/
theorem claim_stripped_subschema_discarded_witness :
    remove_property_format_value_from_json
        (.obj [("a", .null),
               ("contains", .obj [("oneOf", .arr []), ("properties", .obj [("x", .null)])]),
               ("b", .null)]) =
      remove_property_format_value_from_json (.obj [("a", .null), ("b", .null)]) ∧
    enforce_openai_subset
        (.obj [("a", .null),
               ("contains", .obj [("oneOf", .arr []), ("properties", .obj [("x", .null)])]),
               ("b", .null)]) =
      enforce_openai_subset (.obj [("a", .null), ("b", .null)]) :=
  claim_stripped_subschema_discarded "contains"
    (.obj [("oneOf", .arr []), ("properties", .obj [("x", .null)])])
    [("a", .null)] [("b", .null)] (by decide)
